import Mathlib

/-!
Verification of the SCRAM ZBDD engine (`zbdd.cc` / `zbdd.h`).

The engine is embedded shallowly as a state-passing model:

* A `VRef` is a reference to a vertex: one of the two shared terminals
  (`BASE` = `.term true`, `EMPTY` = `.term false`) or a `SetNode` identified
  by its unique id in the node store.
* `ZState` carries the node store, the unique table, the AND/OR compute
  tables, the subsume table, the minimal-results memo, the module table,
  the id counter, the analysis setting `limit_order` and the root.
* The C++ functions (`FetchUniqueTable`, `Apply`, `Minimize`, `Subsume`,
  `EliminateComplement(s)`, `GenerateCutSets`, `Analyze`) become
  fuel-indexed functions threading `ZState`; `none` means the fuel ran out
  (every run of the real, terminating code corresponds to a large enough
  fuel).  Pointer identity of the C++ `shared_ptr` graph is `VRef`
  equality: hash-consing makes the node id the identity of a vertex.
* Reference counting and the weak-pointer garbage collector are not
  modelled: no vertex is ever collected, which matches executions of the
  code in which no entry of the unique table expires.  The only
  observable use of reference counts, the `use_count() > 2` caching guard
  of `GenerateCutSets`, is abstracted into a caching-policy parameter so
  that the theorems hold for every policy, in particular the one the
  reference counts realise.
-/

namespace ZbddSpec

/-- Lookup in an association list (first match), modelling
`std::unordered_map::find`. -/
def lookupA {κ β : Type} [DecidableEq κ] : List (κ × β) → κ → Option β
  | [], _ => none
  | (k, v) :: rest, key => if k = key then some v else lookupA rest key

/-- Reference to a ZBDD vertex.  `term b` is the shared terminal (`kBase_`
for `b = true`, `kEmpty_` for `b = false`); `ref i` is the `SetNode` whose
id is `i`.

Modelled from the spec: the `Vertex`/`Terminal` base classes live in
`bdd.h`, which is not in the sources; per the spec the terminals reserve
the ids 0 and 1 and fresh `SetNode` ids start at 2. -/
inductive VRef : Type where
  | term (value : Bool)
  | ref (id : Int)
deriving DecidableEq

/-- `Vertex::id()`: 0 for `EMPTY`, 1 for `BASE`, the stored id otherwise. -/
def VRef.vid : VRef → Int
  | .term b => if b then 1 else 0
  | .ref i => i

/-- `Vertex::terminal()`. -/
def VRef.isTerm : VRef → Bool
  | .term _ => true
  | .ref _ => false

/-- The mutable data of a `SetNode` (class `SetNode` in `zbdd.h`):
index, order, the high and low children, the module proxy flag, the
`minimal_` flag, the traversal `mark` and the cached `cut_sets_`. -/
structure SetNode : Type where
  index : Int
  order : Int
  high : VRef
  low : VRef
  module : Bool
  minimal : Bool
  mark : Bool
  cutSets : List (List Int)
deriving DecidableEq

/-- The operators accepted by `Zbdd::Apply` (`kOrGate` / `kAndGate`). -/
inductive Operator : Type where
  | orGate
  | andGate
deriving DecidableEq

/-- The state of a `Zbdd` object: the node store (id to node), the unique
table, the two compute tables, the subsume table, the minimal-results
memo, the module table, the fresh-id counter `set_id_`, the setting
`kSettings_.limit_order()`, the root and the generated cut sets. -/
structure ZState : Type where
  nodes : List (Int × SetNode)
  uniq : List ((Int × Int × Int) × Int)
  andTab : List ((Int × Int × Int) × VRef)
  orTab : List ((Int × Int × Int) × VRef)
  subTab : List ((Int × Int) × VRef)
  minTab : List (Int × VRef)
  modules : List (Int × VRef)
  nextId : Int
  limitOrder : Int
  root : VRef
  cutSets : List (List Int)
deriving DecidableEq

/-- Node lookup by id (dereferencing a `SetNodePtr`). -/
def ZState.node? (σ : ZState) (i : Int) : Option SetNode :=
  lookupA σ.nodes i

/-- `SetNode::minimal(flag)` on the node with id `i` (a no-op if no node
has this id). -/
def ZState.setMinimal (σ : ZState) (i : Int) (b : Bool) : ZState :=
  { σ with nodes := σ.nodes.map fun p =>
      if p.1 = i then (p.1, { p.2 with minimal := b }) else p }

/-- `Node::mark(flag)` on the node with id `i`. -/
def ZState.setMark (σ : ZState) (i : Int) (b : Bool) : ZState :=
  { σ with nodes := σ.nodes.map fun p =>
      if p.1 = i then (p.1, { p.2 with mark := b }) else p }

/-- `SetNode::cut_sets(cut_sets)` on the node with id `i`. -/
def ZState.setCutSets (σ : ZState) (i : Int) (cs : List (List Int)) : ZState :=
  { σ with nodes := σ.nodes.map fun p =>
      if p.1 = i then (p.1, { p.2 with cutSets := cs }) else p }

/-- `SetNode::CutBranches()` on the node with id `i`: the high and low
edges are released.  The released children are represented by `EMPTY`;
they are never read again, because `GenerateCutSets` returns the cached
cut sets of any marked node before touching its children. -/
def ZState.cutBranches (σ : ZState) (i : Int) : ZState :=
  { σ with nodes := σ.nodes.map fun p =>
      if p.1 = i then (p.1, { p.2 with high := .term false, low := .term false }) else p }

/-- The allocation step of `FetchUniqueTable`: a fresh `SetNode` with id
`set_id_++` is created and installed in the store and the unique table. -/
def fetchFresh (σ : ZState) (index : Int) (high low : VRef)
    (order : Int) (module : Bool) : ZState :=
  { σ with
    nodes := (σ.nextId,
      { index := index, order := order, high := high, low := low,
        module := module, minimal := false, mark := false,
        cutSets := [] }) :: σ.nodes,
    uniq := ((index, high.vid, low.vid), σ.nextId) :: σ.uniq,
    nextId := σ.nextId + 1 }

/-- `Zbdd::FetchUniqueTable(index, high, low, order, module)`
(`zbdd.cc` lines 166-177): look up `(index, high->id(), low->id())` in the
unique table; return the entry if present, otherwise allocate a fresh
`SetNode` with id `set_id_++` and install it. -/
def fetchUniqueTable (σ : ZState) (index : Int) (high low : VRef)
    (order : Int) (module : Bool) : VRef × ZState :=
  match lookupA σ.uniq (index, high.vid, low.vid) with
  | some j => (.ref j, σ)
  | none => (.ref σ.nextId, fetchFresh σ index high low order module)

/-- `Zbdd::Apply(Operator, TerminalPtr, TerminalPtr)`
(`zbdd.cc` lines 402-414). -/
def applyTerminals (type : Operator) (valOne valTwo : Bool) : VRef :=
  match type with
  | .orGate => if valOne || valTwo then .term true else .term false
  | .andGate => if !valOne || !valTwo then .term false else .term true

/-- `Zbdd::Apply(Operator, SetNodePtr, TerminalPtr)`
(`zbdd.cc` lines 416-428). -/
def applyNodeTerminal (type : Operator) (setNode : VRef) (termValue : Bool) : VRef :=
  match type with
  | .orGate => if termValue then .term true else setNode
  | .andGate => if !termValue then .term false else setNode

/-- The key of the AND/OR compute tables:
`(min(id, id), max(id, id), limit_order)`. -/
def computeKey (argOne argTwo : VRef) (order : Int) : Int × Int × Int :=
  (min argOne.vid argTwo.vid, max argOne.vid argTwo.vid, order)

/-- The read half of `Zbdd::FetchComputeTable` (`zbdd.cc` lines 358-375). -/
def fetchComputeTable (σ : ZState) (type : Operator) (argOne argTwo : VRef)
    (order : Int) : Option VRef :=
  match type with
  | .orGate => lookupA σ.orTab (computeKey argOne argTwo order)
  | .andGate => lookupA σ.andTab (computeKey argOne argTwo order)

/-- The write half of `Zbdd::FetchComputeTable`: the computed result is
assigned through the reference into the table. -/
def storeComputeTable (σ : ZState) (type : Operator) (argOne argTwo : VRef)
    (order : Int) (r : VRef) : ZState :=
  match type with
  | .orGate => { σ with orTab := (computeKey argOne argTwo order, r) :: σ.orTab }
  | .andGate => { σ with andTab := (computeKey argOne argTwo order, r) :: σ.andTab }

/-- The canonical operand swap of `Zbdd::Apply` (`zbdd.cc` lines
395-397): the operand with the smaller order (at equal orders, the
larger index) comes first. -/
def canonicalPair (argOne : VRef) (n₁ : SetNode) (argTwo : VRef)
    (n₂ : SetNode) : VRef × SetNode × VRef × SetNode :=
  if n₁.order > n₂.order then (argTwo, n₂, argOne, n₁)
  else if n₁.order = n₂.order ∧ n₁.index < n₂.index then (argTwo, n₂, argOne, n₁)
  else (argOne, n₁, argTwo, n₂)

mutual

/-- `Zbdd::Apply(Operator, VertexPtr, VertexPtr, int)`
(`zbdd.cc` lines 377-400): negative budget gives `EMPTY`; terminal
dispatch; idempotence on equal ids; compute-table lookup; canonical
operand swap by `(order, index)`; recursion and memoisation. -/
def applyVertex : Nat → Operator → VRef → VRef → Int → ZState →
    Option (VRef × ZState)
  | 0, _, _, _, _, _ => none
  | Nat.succ f, type, argOne, argTwo, limitOrder, σ =>
    if limitOrder < 0 then some (.term false, σ)
    else
      match argOne, argTwo with
      | .term v₁, .term v₂ => some (applyTerminals type v₁ v₂, σ)
      | .term v₁, .ref _ => some (applyNodeTerminal type argTwo v₁, σ)
      | .ref _, .term v₂ => some (applyNodeTerminal type argOne v₂, σ)
      | .ref i, .ref j =>
        if i = j then some (argOne, σ)
        else
          match fetchComputeTable σ type argOne argTwo limitOrder with
          | some r => some (r, σ)
          | none => do
            let n₁ ← σ.node? i
            let n₂ ← σ.node? j
            let s := canonicalPair argOne n₁ argTwo n₂
            let (r, σ₁) ←
              applyNodes f type s.1 s.2.1 s.2.2.1 s.2.2.2 limitOrder σ
            some (r, storeComputeTable σ₁ type argOne argTwo limitOrder r)

/-- `Zbdd::Apply(Operator, SetNodePtr, SetNodePtr, int)`
(`zbdd.cc` lines 430-496): the recursive cases on two ordered set nodes.
Nested C++ call arguments are threaded innermost-first, left to right. -/
def applyNodes : Nat → Operator → VRef → SetNode → VRef → SetNode → Int →
    ZState → Option (VRef × ZState)
  | 0, _, _, _, _, _, _, _ => none
  | Nat.succ f, type, _refOne, argOne, refTwo, argTwo, limitOrder, σ =>
    let limitHigh := limitOrder - 1 + (if argOne.index < 0 ∨ argOne.module then 1 else 0)
    if argOne.order = argTwo.order ∧ argOne.index = argTwo.index then
      match type with
      | .orGate => do
        let (high, σ₁) ← applyVertex f .orGate argOne.high argTwo.high limitHigh σ
        let (low, σ₂) ← applyVertex f .orGate argOne.low argTwo.low limitOrder σ₁
        applyFinish f argOne high low σ₂
      | .andGate => do
        let (t₁, σ₁) ← applyVertex f .orGate argTwo.high argTwo.low limitHigh σ
        let (t₂, σ₂) ← applyVertex f .andGate argOne.high t₁ limitHigh σ₁
        let (t₃, σ₃) ← applyVertex f .andGate argOne.low argTwo.high limitHigh σ₂
        let (high, σ₄) ← applyVertex f .orGate t₂ t₃ limitHigh σ₃
        let (low, σ₅) ← applyVertex f .andGate argOne.low argTwo.low limitOrder σ₄
        applyFinish f argOne high low σ₅
    else
      match type with
      | .orGate =>
        if argOne.order = argTwo.order ∧ argOne.high.isTerm ∧ argTwo.high.isTerm then
          some (.term true, σ)
        else do
          let (low, σ₁) ← applyVertex f .orGate argOne.low refTwo limitOrder σ
          applyFinish f argOne argOne.high low σ₁
      | .andGate => do
        let (high, σ₁) ←
          if argOne.order = argTwo.order then
            applyVertex f .andGate argOne.high argTwo.low limitHigh σ
          else
            applyVertex f .andGate argOne.high refTwo limitHigh σ
        let (low, σ₂) ← applyVertex f .andGate argOne.low refTwo limitOrder σ₁
        applyFinish f argOne high low σ₂

/-- The tail of the SetNode `Apply` overload (`zbdd.cc` lines 487-496):
if the computed high branch is a node at the same order as `argOne`
(the complement of the same variable risen past), replace it with its
own low branch; then reduce and fetch. -/
def applyFinish : Nat → SetNode → VRef → VRef → ZState → Option (VRef × ZState)
  | 0, _, _, _, _ => none
  | Nat.succ f, argOne, high, low, σ => do
    let high₁ ←
      match high with
      | .term _ => some high
      | .ref k => do
        let nk ← σ.node? k
        some (if nk.order = argOne.order then nk.low else high)
    applyReduce f argOne high₁ low σ

/-- The reduction and hash-consing step closing the SetNode `Apply`
overload (`zbdd.cc` lines 491-495): equal ids or an `EMPTY` high give
`low`; otherwise the unique-table node is fetched and passed through
`Minimize`. -/
def applyReduce : Nat → SetNode → VRef → VRef → ZState → Option (VRef × ZState)
  | 0, _, _, _, _ => none
  | Nat.succ f, argOne, high, low, σ =>
    if high.vid = low.vid then some (low, σ)
    else if high = .term false then some (low, σ)
    else
      let (r, σ₁) := fetchUniqueTable σ argOne.index high low argOne.order argOne.module
      minimize f r σ₁

/-- `Zbdd::Minimize(VertexPtr)` (`zbdd.cc` lines 535-553). -/
def minimize : Nat → VRef → ZState → Option (VRef × ZState)
  | 0, _, _ => none
  | Nat.succ f, v, σ =>
    match v with
    | .term _ => some (v, σ)
    | .ref i => do
      let nd ← σ.node? i
      if nd.minimal then some (v, σ)
      else
        match lookupA σ.minTab i with
        | some r => some (r, σ)
        | none => do
          let (high, σ₁) ← minimize f nd.high σ
          let (low, σ₂) ← minimize f nd.low σ₁
          let (high₂, σ₃) ← subsume f high low σ₂
          if high₂ = .term false then
            some (low, { σ₃ with minTab := (i, low) :: σ₃.minTab })
          else
            let (r, σ₄) := fetchUniqueTable σ₃ nd.index high₂ low nd.order nd.module
            let σ₅ := σ₄.setMinimal r.vid true
            some (r, { σ₅ with minTab := (i, r) :: σ₅.minTab })

/-- `Zbdd::Subsume(VertexPtr, VertexPtr)` (`zbdd.cc` lines 555-595). -/
def subsume : Nat → VRef → VRef → ZState → Option (VRef × ZState)
  | 0, _, _, _ => none
  | Nat.succ f, high, low, σ =>
    match low with
    | .term b => some (if b then VRef.term false else high, σ)
    | .ref li =>
      match high with
      | .term _ => some (high, σ)
      | .ref hi =>
        match lookupA σ.subTab (hi, li) with
        | some r => some (r, σ)
        | none => do
          let highNode ← σ.node? hi
          let lowNode ← σ.node? li
          if highNode.order > lowNode.order ∨
              (highNode.order = lowNode.order ∧ highNode.index < lowNode.index) then do
            let (r, σ₁) ← subsume f high lowNode.low σ
            some (r, { σ₁ with subTab := ((hi, li), r) :: σ₁.subTab })
          else do
            let (subhigh, sublow, σ₂) ←
              if highNode.order = lowNode.order ∧ highNode.index = lowNode.index then do
                let (s₁, σa) ← subsume f highNode.high lowNode.high σ
                let (s₂, σb) ← subsume f s₁ lowNode.low σa
                let (s₃, σc) ← subsume f highNode.low lowNode.low σb
                some ((s₂, s₃, σc))
              else do
                let (s₁, σa) ← subsume f highNode.high low σ
                let (s₂, σb) ← subsume f highNode.low low σa
                some ((s₁, s₂, σb))
            if subhigh = .term false then
              some (sublow, { σ₂ with subTab := ((hi, li), sublow) :: σ₂.subTab })
            else do
              let (r, σ₃) :=
                fetchUniqueTable σ₂ highNode.index subhigh sublow
                  highNode.order highNode.module
              let hn ← σ₃.node? hi
              let σ₄ := σ₃.setMinimal r.vid hn.minimal
              some (r, { σ₄ with subTab := ((hi, li), r) :: σ₄.subTab })

end

mutual

/-- `Zbdd::EliminateComplements(VertexPtr, wide_results)`
(`zbdd.cc` lines 498-511): memoised post-order rewrite.  The memo
`wide_results` is a local map threaded alongside the state; the high
child is processed before the low child. -/
def eliminateComplements : Nat → VRef → ZState → List (Int × VRef) →
    Option (VRef × ZState × List (Int × VRef))
  | 0, _, _, _ => none
  | Nat.succ f, v, σ, wide =>
    match v with
    | .term _ => some (v, σ, wide)
    | .ref i =>
      match lookupA wide i with
      | some r => some (r, σ, wide)
      | none => do
        let nd ← σ.node? i
        let (high, σ₁, w₁) ← eliminateComplements f nd.high σ wide
        let (low, σ₂, w₂) ← eliminateComplements f nd.low σ₁ w₁
        let (r, σ₃, w₃) ← eliminateComplement f nd high low σ₂ w₂
        some (r, σ₃, (i, r) :: w₃)

/-- `Zbdd::EliminateComplement(SetNodePtr, high, low, wide_results)`
(`zbdd.cc` lines 513-533): a negative index is absorbed by
`OR(high, low, limit_order)`; equal ids or an `EMPTY` high give `low`;
a module is recursively eliminated and minimized, with terminal modules
folded away; otherwise the node is rebuilt through the unique table. -/
def eliminateComplement : Nat → SetNode → VRef → VRef → ZState →
    List (Int × VRef) → Option (VRef × ZState × List (Int × VRef))
  | 0, _, _, _, _, _ => none
  | Nat.succ f, node, high, low, σ, wide =>
    if node.index < 0 then do
      let (r, σ₁) ← applyVertex (Nat.succ f) .orGate high low σ.limitOrder σ
      some (r, σ₁, wide)
    else if high.vid = low.vid then some (low, σ, wide)
    else if high = .term false then some (low, σ, wide)
    else if node.module then do
      let m ← lookupA σ.modules node.index
      let (m₁, σ₁, w₁) ← eliminateComplements f m σ wide
      let (m₂, σ₂) ← minimize (Nat.succ f) m₁ σ₁
      let σ₃ := { σ₂ with modules := (node.index, m₂) :: σ₂.modules }
      match m₂ with
      | .term false => some (low, σ₃, w₁)
      | .term true => do
          let (r, σ₄) ← applyVertex (Nat.succ f) .orGate high low σ₃.limitOrder σ₃
          some (r, σ₄, w₁)
      | .ref _ =>
          let (r, σ₄) := fetchUniqueTable σ₃ node.index high low node.order node.module
          some (r, σ₄, w₁)
    else
      let (r, σ₁) := fetchUniqueTable σ node.index high low node.order node.module
      some (r, σ₁, wide)

end

/-- `Zbdd::GenerateCutSets(VertexPtr)` (`zbdd.cc` lines 597-635):
destructive enumeration of the cut sets.  `useCount i` abstracts the
`node.use_count() > 2` test deciding whether the result is cached on the
node; the theorems below hold for every caching policy. -/
def generateCutSets : Nat → (Int → Bool) → VRef → ZState →
    Option (List (List Int) × ZState)
  | 0, _, _, _ => none
  | Nat.succ f, useCount, v, σ =>
    match v with
    | .term b => some (if b then [[]] else [], σ)
    | .ref i => do
      let nd ← σ.node? i
      if nd.mark then some (nd.cutSets, σ)
      else do
        let σ₀ := σ.setMark i true
        let (low, σ₁) ← generateCutSets f useCount nd.low σ₀
        let (high, σ₂) ← generateCutSets f useCount nd.high σ₁
        let (result, σ₃) ←
          if nd.module then do
            let mv ← lookupA σ₂.modules nd.index
            let (moduleSets, σm) ← generateCutSets f useCount mv σ₂
            some (low ++ high.flatMap (fun cutSet =>
              moduleSets.filterMap (fun moduleSet =>
                if ((cutSet.length + moduleSet.length : Nat) : Int) > σm.limitOrder
                then none
                else some (cutSet ++ moduleSet))), σm)
          else
            some (low ++ high.filterMap (fun cutSet =>
              if ((cutSet.length : Nat) : Int) = σ₂.limitOrder then none
              else some (cutSet ++ [nd.index])), σ₂)
        let σ₄ := σ₃.cutBranches i
        let σ₅ := if useCount i then σ₄.setCutSets i result else σ₄
        some (result, σ₅)

/-- The module-minimization loop opening `Zbdd::Analyze`
(`zbdd.cc` lines 127-128): each module root is replaced by its
`Minimize` image. -/
def minimizeModules : Nat → List (Int × VRef) → ZState →
    Option (List (Int × VRef) × ZState)
  | _, [], σ => some ([], σ)
  | f, (k, v) :: rest, σ => do
    let (r, σ₁) ← minimize f v σ
    let (rs, σ₂) ← minimizeModules f rest σ₁
    some ((k, r) :: rs, σ₂)

/-- `Zbdd::Analyze()` (`zbdd.cc` lines 121-153): minimize the modules and
the root, clear the tables (the unique table's garbage collector is
turned off by resetting it), generate the cut sets and release the
graph. -/
def analyze (f : Nat) (useCount : Int → Bool) (σ : ZState) :
    Option (List (List Int) × ZState) := do
  let (mods, σ₁) ← minimizeModules f σ.modules σ
  let σ₂ := { σ₁ with modules := mods }
  let (rootMin, σ₃) ← minimize f σ₂.root σ₂
  let σ₄ := { σ₃ with root := rootMin, minTab := [], uniq := [],
                      andTab := [], orTab := [], subTab := [] }
  let (cuts, σ₅) ← generateCutSets f useCount σ₄.root σ₄
  some (cuts, { σ₅ with modules := [], root := .term true, cutSets := cuts })

/-! Concrete states used to evaluate the model on small inputs. -/

/-- A freshly constructed engine state: empty tables, `set_id_ = 2`,
`limit_order = 5`. -/
def emptyState : ZState :=
  { nodes := [], uniq := [], andTab := [], orTab := [], subTab := [],
    minTab := [], modules := [], nextId := 2, limitOrder := 5,
    root := .term false, cutSets := [] }

/-- The node for the literal 3 (order 3): the family containing only the
set containing 3. -/
def nodeA : SetNode :=
  { index := 3, order := 3, high := .term true, low := .term false,
    module := false, minimal := false, mark := false, cutSets := [] }

/-- The node for the family of the sets containing 2 and containing 3
(index 2, order 2, low child `nodeA`). -/
def nodeB : SetNode :=
  { index := 2, order := 2, high := .term true, low := .ref 2,
    module := false, minimal := false, mark := false, cutSets := [] }

/-- The root node of the example: index 1, order 1, high child `nodeA`,
low child `nodeB`; its family is the sets containing 1 and 3, containing
2, and containing 3 — not minimal, since the third subsumes the first. -/
def nodeV : SetNode :=
  { index := 1, order := 1, high := .ref 2, low := .ref 3,
    module := false, minimal := false, mark := false, cutSets := [] }

/-- A reachable engine state holding the example diagram built from
`nodeA` (id 2), `nodeB` (id 3) and `nodeV` (id 4), with a coherent
unique table. -/
def exState : ZState :=
  { nodes := [(2, nodeA), (3, nodeB), (4, nodeV)],
    uniq := [((3, 1, 0), 2), ((2, 1, 2), 3), ((1, 2, 3), 4)],
    andTab := [], orTab := [], subTab := [], minTab := [], modules := [],
    nextId := 5, limitOrder := 5, root := .ref 4, cutSets := [] }

/-- A node carrying the complement literal -2 (same order as the
variable 2). -/
def nodeNeg : SetNode :=
  { index := -2, order := 2, high := .term true, low := .term false,
    module := false, minimal := false, mark := false, cutSets := [] }

/-- Every cut-set list cached on a node of the store is within the
cut-set order bound.  This holds for every state the engine builds:
caches start empty and `GenerateCutSets` only stores what it emits. -/
def cacheBoundedB (σ : ZState) : Bool :=
  σ.nodes.all fun p => p.2.cutSets.all fun s =>
    decide ((s.length : Int) ≤ σ.limitOrder)

/-- A state transition that keeps the order bound and the boundedness of
the cached cut sets. -/
def cachePres (σ σ' : ZState) : Prop :=
  σ'.limitOrder = σ.limitOrder ∧
  (cacheBoundedB σ = true → cacheBoundedB σ' = true)

/-- The reference is a terminal or a node present in the store. -/
def ValidRef (σ : ZState) (v : VRef) : Prop :=
  v.isTerm = true ∨ ∃ nd, σ.node? v.vid = some nd

/-- The subgraph rooted at the reference is hereditarily flagged
`is_minimal` (terminals count as flagged). -/
inductive Flagged (σ : ZState) : VRef → Prop where
  | term (b : Bool) : Flagged σ (.term b)
  | node (i : Int) (nd : SetNode) : σ.node? i = some nd →
      nd.minimal = true → Flagged σ nd.high → Flagged σ nd.low →
      Flagged σ (.ref i)

/-- A state transition that keeps every stored node, preserving its
index, order and children and never clearing its `is_minimal` flag. -/
def Grows (σ σ' : ZState) : Prop :=
  ∀ i nd, σ.node? i = some nd → ∃ nd', σ'.node? i = some nd' ∧
    nd'.index = nd.index ∧ nd'.order = nd.order ∧ nd'.high = nd.high ∧
    nd'.low = nd.low ∧ (nd.minimal = true → nd'.minimal = true)

/-- The structural well-formedness needed for the minimization phase:
`set_id_` is at least 2, node ids lie in `[2, set_id_)`, children are
terminals or live nodes, and the unique table is coherent with the
store. -/
def WfMin (σ : ZState) : Prop :=
  2 ≤ σ.nextId ∧
  (∀ i nd, σ.node? i = some nd → 2 ≤ i ∧ i < σ.nextId) ∧
  (∀ i nd, σ.node? i = some nd → ValidRef σ nd.high ∧ ValidRef σ nd.low) ∧
  (∀ k j, lookupA σ.uniq k = some j → ∃ nd, σ.node? j = some nd ∧
    nd.index = k.1 ∧ nd.high.vid = k.2.1 ∧ nd.low.vid = k.2.2)

/-- The invariant carried through `Minimize` and `Subsume`: the store is
well-formed, the memo tables hold hereditarily flagged live results, and
every node flagged `is_minimal` is hereditarily flagged. -/
def MinInv (σ : ZState) : Prop :=
  WfMin σ ∧
  (∀ p ∈ σ.minTab, Flagged σ p.2) ∧
  (∀ p ∈ σ.subTab, Flagged σ p.2) ∧
  (∀ i nd, σ.node? i = some nd → nd.minimal = true → Flagged σ (.ref i))

/-! ### Family semantics (C6): the set family denoted by a vertex -/

/-- The family of sets denoted by a ZBDD vertex (`zbdd.h`: a `SetNode`
with index `i` denotes `{s ∪ \x7bi\x7d | s ∈ high} ∪ low`; `kBase_` denotes
`{∅}` and `kEmpty_` denotes `∅`).  Fuel-indexed; `none` means out of
fuel. -/
def fam : Nat → ZState → VRef → Option (Finset (Finset Int))
  | 0, _, _ => none
  | Nat.succ f, σ, v =>
    match v with
    | .term b => some (if b then {∅} else ∅)
    | .ref i => do
      let nd ← σ.node? i
      let hs ← fam f σ nd.high
      let ls ← fam f σ nd.low
      some (hs.image (insert nd.index) ∪ ls)

/-- The family denoted by a vertex: evaluation at some sufficient fuel. -/
def Fam (σ : ZState) (v : VRef) (F : Finset (Finset Int)) : Prop :=
  ∃ f, fam f σ v = some F

/-- The setwise difference `H ∖⊇ L`: the sets of `H` that are supersets
of no set of `L`. -/
def filt (H L : Finset (Finset Int)) : Finset (Finset Int) :=
  H.filter fun s => ∀ t ∈ L, ¬ t ⊆ s

/-- An antichain family: no member is contained in another. -/
def Antichain (F : Finset (Finset Int)) : Prop :=
  ∀ s ∈ F, ∀ t ∈ F, s ⊆ t → s = t

instance (F : Finset (Finset Int)) : Decidable (Antichain F) := by
  unfold Antichain
  infer_instance

/-- `(order, index)` position `p` is strictly above `q`: smaller order,
or equal order and larger index (the descent order of the diagram). -/
def posLt (p q : Int × Int) : Prop :=
  p.1 < q.1 ∨ (p.1 = q.1 ∧ q.2 < p.2)

instance (p q : Int × Int) : Decidable (posLt p q) := by
  unfold posLt
  infer_instance

/-- The vertex is a terminal or a live node strictly below position
`p`. -/
def Below (σ : ZState) (p : Int × Int) (v : VRef) : Prop :=
  v.isTerm = true ∨ ∃ j nd, v = .ref j ∧ σ.node? j = some nd ∧
    posLt p (nd.order, nd.index)

/-- A canonical operand for `Subsume`: a well-ordered diagram of live
nodes whose `high` edges avoid `EMPTY` and whose family at every node is
an antichain (a hereditarily minimal diagram). -/
inductive Canon (σ : ZState) : VRef → Prop where
  | term (b : Bool) : Canon σ (.term b)
  | node (i : Int) (nd : SetNode) (F : Finset (Finset Int)) :
      σ.node? i = some nd → nd.high ≠ .term false →
      Canon σ nd.high → Canon σ nd.low →
      Below σ (nd.order, nd.index) nd.high →
      Below σ (nd.order, nd.index) nd.low →
      Fam σ (.ref i) F → Antichain F →
      Canon σ (.ref i)

/-- Store growth preserving each node's index, order and children (the
`is_minimal` flag is unconstrained): what the family semantics reads. -/
def GrowsE (σ σ' : ZState) : Prop :=
  ∀ i nd, σ.node? i = some nd → ∃ nd', σ'.node? i = some nd' ∧
    nd'.index = nd.index ∧ nd'.order = nd.order ∧ nd'.high = nd.high ∧
    nd'.low = nd.low

/-- The index of a variable determines its order, across the store. -/
def IdxOrd (σ : ZState) : Prop :=
  ∀ i nd j nd', σ.node? i = some nd → σ.node? j = some nd' →
    nd.index = nd'.index → nd.order = nd'.order

/-- Coherence of the subsume memo: every cached entry is the exact
setwise difference of the families of its key pair, is canonical, and
sits no higher than its high key. -/
def SubCoh (σ : ZState) : Prop :=
  ∀ p ∈ σ.subTab, ∃ H L, Fam σ (.ref p.1.1) H ∧ Fam σ (.ref p.1.2) L ∧
    Fam σ p.2 (filt H L) ∧ Canon σ p.2 ∧
    (∀ q, Below σ q (.ref p.1.1) → Below σ q p.2)

/-- The state invariant for the family exactness of `Subsume`. -/
def GoodE (σ : ZState) : Prop := WfMin σ ∧ IdxOrd σ ∧ SubCoh σ

/-! Counterexample data for the unconditional reading of the `Subsume`
contract: a structurally valid but non-minimal low operand. -/

/-- The literal 30 (order 3): family `\x7b\x7b30\x7d\x7d`. -/
def nodeW : SetNode :=
  { index := 30, order := 3, high := .term true, low := .term false,
    module := false, minimal := false, mark := false, cutSets := [] }

/-- Index 20 (order 2) with high `nodeW` and low `BASE`: the non-minimal
family `\x7b\x7b20,30\x7d, ∅\x7d`. -/
def nodeZ : SetNode :=
  { index := 20, order := 2, high := .ref 2, low := .term true,
    module := false, minimal := false, mark := false, cutSets := [] }

/-- Index 10 (order 1) with high `nodeZ` and low `EMPTY`: the family
`\x7b\x7b10,20,30\x7d, \x7b10\x7d\x7d`. -/
def nodeXL : SetNode :=
  { index := 10, order := 1, high := .ref 3, low := .term false,
    module := false, minimal := false, mark := false, cutSets := [] }

/-- Index 10 (order 1) with high `BASE` and low `EMPTY`: the family
`\x7b\x7b10\x7d\x7d`. -/
def nodeXH : SetNode :=
  { index := 10, order := 1, high := .term true, low := .term false,
    module := false, minimal := false, mark := false, cutSets := [] }

/-- A reachable state holding both diagrams, with a coherent unique
table. -/
def cexS : ZState :=
  { nodes := [(2, nodeW), (3, nodeZ), (4, nodeXL), (5, nodeXH)],
    uniq := [((30, 1, 0), 2), ((20, 2, 1), 3), ((10, 3, 0), 4),
             ((10, 1, 0), 5)],
    andTab := [], orTab := [], subTab := [], minTab := [], modules := [],
    nextId := 6, limitOrder := 5, root := .ref 4, cutSets := [] }

/-- The state produced by `Subsume(node 3, node 2)` on the example
state: node 5 is the fetched difference, and both computed pairs are
memoised. -/
def exStateSub : ZState :=
  { exState with
      nodes := (5, { nodeB with low := VRef.term false }) :: exState.nodes,
      uniq := ((2, 1, 0), 5) :: exState.uniq,
      subTab := [((3, 2), VRef.ref 5), ((2, 2), VRef.term false)],
      nextId := 6 }

/-- The state left by `Analyze` on the example state: both surviving
nodes are minimal and marked with their cut sets cached, the branches
are released and the tables are cleared. -/
def exStateAnalyzed : ZState :=
  { exState with
      nodes := [
        (2, { nodeA with
                high := .term false
                low := .term false
                minimal := true
                mark := true
                cutSets := [[3]] }),
        (3, { nodeB with
                high := .term false
                low := .term false
                minimal := true
                mark := true
                cutSets := [[3], [2]] }),
        (4, nodeV)],
      uniq := [], root := .term true, cutSets := [[3], [2]] }

/-! ### Theorems -/

theorem cachePres_refl (σ : ZState) : cachePres σ σ := ⟨rfl, id⟩

theorem cachePres_trans {σ₁ σ₂ σ₃ : ZState} (h₁ : cachePres σ₁ σ₂)
    (h₂ : cachePres σ₂ σ₃) : cachePres σ₁ σ₃ :=
  ⟨h₂.1.trans h₁.1, fun h => h₂.2 (h₁.2 h)⟩

/-- Updating a node in place without touching its cached cut sets keeps
`cacheBoundedB` unchanged. -/
theorem cacheBoundedB_nodeMap (σ : ZState) (g : SetNode → SetNode)
    (hg : ∀ nd, (g nd).cutSets = nd.cutSets) (i : Int) :
    cacheBoundedB { σ with nodes := σ.nodes.map fun p =>
      if p.1 = i then (p.1, g p.2) else p } = cacheBoundedB σ := by
  simp only [cacheBoundedB, List.all_map]
  congr 1
  funext p
  by_cases h : p.1 = i <;> simp [h, hg]

theorem cachePres_setMark (σ : ZState) (i : Int) (b : Bool) :
    cachePres σ (σ.setMark i b) :=
  ⟨rfl, fun h => (cacheBoundedB_nodeMap σ (fun nd => { nd with mark := b })
    (fun _ => rfl) i).trans h⟩

theorem cachePres_setMinimal (σ : ZState) (i : Int) (b : Bool) :
    cachePres σ (σ.setMinimal i b) :=
  ⟨rfl, fun h => (cacheBoundedB_nodeMap σ (fun nd => { nd with minimal := b })
    (fun _ => rfl) i).trans h⟩

theorem cachePres_cutBranches (σ : ZState) (i : Int) :
    cachePres σ (σ.cutBranches i) :=
  ⟨rfl, fun h => (cacheBoundedB_nodeMap σ
    (fun nd => { nd with high := .term false, low := .term false })
    (fun _ => rfl) i).trans h⟩

theorem cachePres_subTab (σ : ZState) (x : List ((Int × Int) × VRef)) :
    cachePres σ { σ with subTab := x } := ⟨rfl, id⟩

theorem cachePres_minTab (σ : ZState) (x : List (Int × VRef)) :
    cachePres σ { σ with minTab := x } := ⟨rfl, id⟩

theorem cachePres_fetch (σ : ZState) (index : Int) (high low : VRef)
    (ord : Int) (md : Bool) :
    cachePres σ (fetchUniqueTable σ index high low ord md).2 := by
  unfold fetchUniqueTable
  cases lookupA σ.uniq (index, high.vid, low.vid) with
  | some j => exact cachePres_refl σ
  | none =>
    refine ⟨rfl, fun h => ?_⟩
    simpa [cacheBoundedB, fetchFresh] using h

/-- A successful association-list lookup is a membership. -/
theorem lookupA_mem {κ β : Type} [DecidableEq κ] {l : List (κ × β)} {k : κ}
    {v : β} (h : lookupA l k = some v) : (k, v) ∈ l := by
  induction l with
  | nil => simp [lookupA] at h
  | cons p rest ih =>
    obtain ⟨k', v'⟩ := p
    by_cases hk : k' = k
    · subst hk
      simp only [lookupA] at h
      simp at h
      subst h
      exact List.mem_cons_self _ _
    · simp only [lookupA, if_neg hk] at h
      exact List.mem_cons_of_mem _ (ih h)

/-- The terminal table of `Apply` is symmetric in its operands. -/
theorem applyTerminals_comm (t : Operator) (x y : Bool) :
    applyTerminals t x y = applyTerminals t y x := by
  cases t <;> cases x <;> cases y <;> rfl

/-- The compute-table key is the unordered pair of the ids. -/
theorem computeKey_comm (a b : VRef) (l : Int) :
    computeKey a b l = computeKey b a l := by
  simp [computeKey, min_comm, max_comm]

/-- Compute-table lookups are insensitive to the operand order. -/
theorem fetchComputeTable_comm (σ : ZState) (t : Operator) (a b : VRef)
    (l : Int) : fetchComputeTable σ t a b l = fetchComputeTable σ t b a l := by
  cases t <;> simp [fetchComputeTable, computeKey_comm a b l]

/-- A result just stored under the unordered key is found again with the
operands swapped. -/
theorem fetch_store_compute (σ : ZState) (t : Operator) (a b : VRef)
    (l : Int) (r : VRef) :
    fetchComputeTable (storeComputeTable σ t a b l r) t b a l = some r := by
  cases t <;>
    simp [fetchComputeTable, storeComputeTable, lookupA, computeKey_comm a b l]

/-- Inversion principle for one step of `subsume`: a successful call took
exactly one of the eight paths of the source. -/
theorem subsume_inv {f : Nat} {high low : VRef} {σ : ZState} {r : VRef}
    {σ' : ZState} (H : subsume (Nat.succ f) high low σ = some (r, σ')) :
    (∃ b, low = .term b ∧ r = (if b then VRef.term false else high) ∧ σ' = σ) ∨
    (∃ li v, low = .ref li ∧ high = .term v ∧ r = high ∧ σ' = σ) ∨
    (∃ li hi r₀, low = .ref li ∧ high = .ref hi ∧
      lookupA σ.subTab (hi, li) = some r₀ ∧ r = r₀ ∧ σ' = σ) ∨
    (∃ li hi hn ln, low = .ref li ∧ high = .ref hi ∧
      lookupA σ.subTab (hi, li) = none ∧
      σ.node? hi = some hn ∧ σ.node? li = some ln ∧
      ((hn.order > ln.order ∨ (hn.order = ln.order ∧ hn.index < ln.index)) ∧
        (∃ r₀ σ₁, subsume f high ln.low σ = some (r₀, σ₁) ∧ r = r₀ ∧
          σ' = { σ₁ with subTab := ((hi, li), r₀) :: σ₁.subTab }) ∨
       ¬ (hn.order > ln.order ∨ (hn.order = ln.order ∧ hn.index < ln.index)) ∧
        (∃ subhigh sublow σ₂,
          ((hn.order = ln.order ∧ hn.index = ln.index) ∧
            (∃ s₁ σa σb, subsume f hn.high ln.high σ = some (s₁, σa) ∧
              subsume f s₁ ln.low σa = some (subhigh, σb) ∧
              subsume f hn.low ln.low σb = some (sublow, σ₂)) ∨
           ¬ (hn.order = ln.order ∧ hn.index = ln.index) ∧
            (∃ σa, subsume f hn.high low σ = some (subhigh, σa) ∧
              subsume f hn.low low σa = some (sublow, σ₂))) ∧
          ((subhigh = .term false ∧ r = sublow ∧
             σ' = { σ₂ with subTab := ((hi, li), sublow) :: σ₂.subTab }) ∨
           (subhigh ≠ .term false ∧
             ∃ hn₂,
               (fetchUniqueTable σ₂ hn.index subhigh sublow hn.order
                   hn.module).2.node? hi = some hn₂ ∧
               r = (fetchUniqueTable σ₂ hn.index subhigh sublow hn.order
                   hn.module).1 ∧
               σ' = { ((fetchUniqueTable σ₂ hn.index subhigh sublow hn.order
                         hn.module).2.setMinimal r.vid hn₂.minimal) with
                      subTab := ((hi, li), r) ::
                        ((fetchUniqueTable σ₂ hn.index subhigh sublow hn.order
                          hn.module).2.setMinimal r.vid hn₂.minimal).subTab }))))) := by
  cases low with
  | term b =>
    left
    simp only [subsume, Option.some.injEq, Prod.mk.injEq] at H
    exact ⟨b, rfl, H.1.symm, H.2.symm⟩
  | ref li =>
    cases high with
    | term v =>
      right; left
      simp only [subsume, Option.some.injEq, Prod.mk.injEq] at H
      exact ⟨li, v, rfl, rfl, H.1.symm, H.2.symm⟩
    | ref hi =>
      cases hmemo : lookupA σ.subTab (hi, li) with
      | some r₀ =>
        right; right; left
        simp only [subsume, hmemo, Option.some.injEq, Prod.mk.injEq] at H
        exact ⟨li, hi, r₀, rfl, rfl, hmemo, H.1.symm, H.2.symm⟩
      | none =>
        right; right; right
        simp only [subsume, hmemo] at H
        cases hhn : σ.node? hi with
        | none => rw [hhn] at H; simp at H
        | some hn =>
          rw [hhn] at H
          cases hln : σ.node? li with
          | none => rw [hln] at H; simp at H
          | some ln =>
            rw [hln] at H
            simp only [Bind.bind, Option.some_bind] at H
            refine ⟨li, hi, hn, ln, rfl, rfl, hmemo, hhn, hln, ?_⟩
            by_cases hord : hn.order > ln.order ∨
                (hn.order = ln.order ∧ hn.index < ln.index)
            · rw [if_pos hord] at H
              cases hrec : subsume f (VRef.ref hi) ln.low σ with
              | none => rw [hrec] at H; simp at H
              | some p =>
                rw [hrec] at H
                obtain ⟨r₀, σ₁⟩ := p
                simp only [Option.some_bind, Option.some.injEq,
                  Prod.mk.injEq] at H
                exact Or.inl ⟨hord, r₀, σ₁, rfl, H.1.symm, H.2.symm⟩
            · rw [if_neg hord] at H
              refine Or.inr ⟨hord, ?_⟩
              by_cases hsame : hn.order = ln.order ∧ hn.index = ln.index
              · rw [if_pos hsame] at H
                cases h₁ : subsume f hn.high ln.high σ with
                | none => rw [h₁] at H; simp at H
                | some p₁ =>
                  rw [h₁] at H
                  obtain ⟨s₁, σa⟩ := p₁
                  simp only [Option.some_bind] at H
                  cases h₂ : subsume f s₁ ln.low σa with
                  | none => rw [h₂] at H; simp at H
                  | some p₂ =>
                    rw [h₂] at H
                    obtain ⟨s₂, σb⟩ := p₂
                    simp only [Option.some_bind] at H
                    cases h₃ : subsume f hn.low ln.low σb with
                    | none => rw [h₃] at H; simp at H
                    | some p₃ =>
                      rw [h₃] at H
                      obtain ⟨s₃, σc⟩ := p₃
                      simp only [Option.some_bind] at H
                      refine ⟨s₂, s₃, σc,
                        Or.inl ⟨hsame, s₁, σa, σb, rfl, h₂, h₃⟩, ?_⟩
                      by_cases hterm : s₂ = VRef.term false
                      · rw [if_pos hterm] at H
                        simp only [Option.some.injEq, Prod.mk.injEq] at H
                        exact Or.inl ⟨hterm, H.1.symm, H.2.symm⟩
                      · rw [if_neg hterm] at H
                        cases hhn₂ : (fetchUniqueTable σc hn.index s₂ s₃
                            hn.order hn.module).2.node? hi with
                        | none =>
                          rw [hhn₂] at H
                          simp at H
                        | some hn₂ =>
                          rw [hhn₂] at H
                          simp only [Option.some_bind, Option.some.injEq,
                            Prod.mk.injEq] at H
                          refine Or.inr ⟨hterm, hn₂, rfl, H.1.symm, ?_⟩
                          rw [← H.1]
                          exact H.2.symm
              · rw [if_neg hsame] at H
                cases h₁ : subsume f hn.high (VRef.ref li) σ with
                | none => rw [h₁] at H; simp at H
                | some p₁ =>
                  rw [h₁] at H
                  obtain ⟨s₁, σa⟩ := p₁
                  simp only [Option.some_bind] at H
                  cases h₂ : subsume f hn.low (VRef.ref li) σa with
                  | none => rw [h₂] at H; simp at H
                  | some p₂ =>
                    rw [h₂] at H
                    obtain ⟨s₂, σb⟩ := p₂
                    simp only [Option.some_bind] at H
                    refine ⟨s₁, s₂, σb,
                      Or.inr ⟨hsame, σa, rfl, h₂⟩, ?_⟩
                    by_cases hterm : s₁ = VRef.term false
                    · rw [if_pos hterm] at H
                      simp only [Option.some.injEq, Prod.mk.injEq] at H
                      exact Or.inl ⟨hterm, H.1.symm, H.2.symm⟩
                    · rw [if_neg hterm] at H
                      cases hhn₂ : (fetchUniqueTable σb hn.index s₁ s₂
                          hn.order hn.module).2.node? hi with
                      | none =>
                        rw [hhn₂] at H
                        simp at H
                      | some hn₂ =>
                        rw [hhn₂] at H
                        simp only [Option.some_bind, Option.some.injEq,
                          Prod.mk.injEq] at H
                        refine Or.inr ⟨hterm, hn₂, rfl, H.1.symm, ?_⟩
                        rw [← H.1]
                        exact H.2.symm

/-- Inversion principle for one step of `minimize`: a successful call
took exactly one of the five paths of the source. -/
theorem minimize_inv {f : Nat} {v : VRef} {σ : ZState} {r : VRef}
    {σ' : ZState} (H : minimize (Nat.succ f) v σ = some (r, σ')) :
    (∃ b, v = .term b ∧ r = v ∧ σ' = σ) ∨
    (∃ i nd, v = .ref i ∧ σ.node? i = some nd ∧ nd.minimal = true ∧
      r = v ∧ σ' = σ) ∨
    (∃ i nd r₀, v = .ref i ∧ σ.node? i = some nd ∧ nd.minimal = false ∧
      lookupA σ.minTab i = some r₀ ∧ r = r₀ ∧ σ' = σ) ∨
    (∃ i nd h₁ σ₁ l₁ σ₂ h₂ σ₃, v = .ref i ∧ σ.node? i = some nd ∧
      nd.minimal = false ∧ lookupA σ.minTab i = none ∧
      minimize f nd.high σ = some (h₁, σ₁) ∧
      minimize f nd.low σ₁ = some (l₁, σ₂) ∧
      subsume f h₁ l₁ σ₂ = some (h₂, σ₃) ∧
      ((h₂ = .term false ∧ r = l₁ ∧
         σ' = { σ₃ with minTab := (i, l₁) :: σ₃.minTab }) ∨
       (h₂ ≠ .term false ∧
         r = (fetchUniqueTable σ₃ nd.index h₂ l₁ nd.order nd.module).1 ∧
         σ' = { ((fetchUniqueTable σ₃ nd.index h₂ l₁ nd.order
                   nd.module).2.setMinimal r.vid true) with
                minTab := (i, r) ::
                  ((fetchUniqueTable σ₃ nd.index h₂ l₁ nd.order
                    nd.module).2.setMinimal r.vid true).minTab }))) := by
  cases v with
  | term b =>
    left
    simp only [minimize, Option.some.injEq, Prod.mk.injEq] at H
    exact ⟨b, rfl, H.1.symm, H.2.symm⟩
  | ref i =>
    cases hnd : σ.node? i with
    | none => simp only [minimize, hnd] at H; simp at H
    | some nd =>
      simp only [minimize, hnd, Bind.bind, Option.some_bind] at H
      cases hmin : nd.minimal with
      | true =>
        right; left
        rw [hmin] at H
        simp only [if_pos] at H
        simp only [Option.some.injEq, Prod.mk.injEq] at H
        exact ⟨i, nd, rfl, hnd, hmin, H.1.symm, H.2.symm⟩
      | false =>
        rw [hmin] at H
        simp only [Bool.false_eq_true, if_false] at H
        cases hmemo : lookupA σ.minTab i with
        | some r₀ =>
          right; right; left
          rw [hmemo] at H
          simp only [Option.some.injEq, Prod.mk.injEq] at H
          exact ⟨i, nd, r₀, rfl, hnd, hmin, hmemo, H.1.symm, H.2.symm⟩
        | none =>
          right; right; right
          rw [hmemo] at H
          cases hh : minimize f nd.high σ with
          | none => rw [hh] at H; simp at H
          | some p₁ =>
            rw [hh] at H
            obtain ⟨h₁, σ₁⟩ := p₁
            simp only [Option.some_bind] at H
            cases hl : minimize f nd.low σ₁ with
            | none => rw [hl] at H; simp at H
            | some p₂ =>
              rw [hl] at H
              obtain ⟨l₁, σ₂⟩ := p₂
              simp only [Option.some_bind] at H
              cases hs : subsume f h₁ l₁ σ₂ with
              | none => rw [hs] at H; simp at H
              | some p₃ =>
                rw [hs] at H
                obtain ⟨h₂, σ₃⟩ := p₃
                simp only [Option.some_bind] at H
                refine ⟨i, nd, h₁, σ₁, l₁, σ₂, h₂, σ₃, rfl, hnd, hmin, hmemo,
                  hh, hl, hs, ?_⟩
                by_cases hterm : h₂ = VRef.term false
                · rw [if_pos hterm] at H
                  simp only [Option.some.injEq, Prod.mk.injEq] at H
                  exact Or.inl ⟨hterm, H.1.symm, H.2.symm⟩
                · rw [if_neg hterm] at H
                  simp only [Option.some.injEq, Prod.mk.injEq] at H
                  refine Or.inr ⟨hterm, H.1.symm, ?_⟩
                  rw [← H.1]
                  exact H.2.symm

/-- Inversion principle for one step of `generateCutSets`: a successful
call took exactly one of the four paths of the source. -/
theorem generateCutSets_inv {f : Nat} {uc : Int → Bool} {v : VRef}
    {σ : ZState} {res : List (List Int)} {σ' : ZState}
    (H : generateCutSets (Nat.succ f) uc v σ = some (res, σ')) :
    (∃ b, v = .term b ∧ res = (if b then [[]] else []) ∧ σ' = σ) ∨
    (∃ i nd, v = .ref i ∧ σ.node? i = some nd ∧ nd.mark = true ∧
      res = nd.cutSets ∧ σ' = σ) ∨
    (∃ i nd low σ₁ high σ₂, v = .ref i ∧ σ.node? i = some nd ∧
      nd.mark = false ∧
      generateCutSets f uc nd.low (σ.setMark i true) = some (low, σ₁) ∧
      generateCutSets f uc nd.high σ₁ = some (high, σ₂) ∧
      ((nd.module = true ∧ ∃ mv msets σm,
          lookupA σ₂.modules nd.index = some mv ∧
          generateCutSets f uc mv σ₂ = some (msets, σm) ∧
          res = low ++ high.flatMap (fun cutSet =>
            msets.filterMap (fun moduleSet =>
              if ((cutSet.length + moduleSet.length : Nat) : Int) >
                  σm.limitOrder then none
              else some (cutSet ++ moduleSet))) ∧
          σ' = (if uc i then (σm.cutBranches i).setCutSets i res
                else σm.cutBranches i)) ∨
       (nd.module = false ∧
          res = low ++ high.filterMap (fun cutSet =>
            if ((cutSet.length : Nat) : Int) = σ₂.limitOrder then none
            else some (cutSet ++ [nd.index])) ∧
          σ' = (if uc i then (σ₂.cutBranches i).setCutSets i res
                else σ₂.cutBranches i)))) := by
  cases v with
  | term b =>
    left
    simp only [generateCutSets, Option.some.injEq, Prod.mk.injEq] at H
    exact ⟨b, rfl, H.1.symm, H.2.symm⟩
  | ref i =>
    cases hnd : σ.node? i with
    | none => simp only [generateCutSets, hnd] at H; simp at H
    | some nd =>
      simp only [generateCutSets, hnd, Bind.bind, Option.some_bind] at H
      cases hmark : nd.mark with
      | true =>
        right; left
        rw [hmark] at H
        simp only [if_pos, Option.some.injEq, Prod.mk.injEq] at H
        exact ⟨i, nd, rfl, hnd, hmark, H.1.symm, H.2.symm⟩
      | false =>
        right; right
        rw [hmark] at H
        simp only [Bool.false_eq_true, if_false] at H
        cases hlow : generateCutSets f uc nd.low (σ.setMark i true) with
        | none => rw [hlow] at H; simp at H
        | some p₁ =>
          rw [hlow] at H
          obtain ⟨low, σ₁⟩ := p₁
          simp only [Option.some_bind] at H
          cases hhigh : generateCutSets f uc nd.high σ₁ with
          | none => rw [hhigh] at H; simp at H
          | some p₂ =>
            rw [hhigh] at H
            obtain ⟨high, σ₂⟩ := p₂
            simp only [Option.some_bind] at H
            refine ⟨i, nd, low, σ₁, high, σ₂, rfl, hnd, hmark, hlow, hhigh, ?_⟩
            cases hmod : nd.module with
            | true =>
              rw [hmod] at H
              simp only [if_pos] at H
              cases hmv : lookupA σ₂.modules nd.index with
              | none => rw [hmv] at H; simp at H
              | some mv =>
                rw [hmv] at H
                simp only [Option.some_bind] at H
                cases hms : generateCutSets f uc mv σ₂ with
                | none => rw [hms] at H; simp at H
                | some p₃ =>
                  rw [hms] at H
                  obtain ⟨msets, σm⟩ := p₃
                  simp only [Option.some_bind, Option.some.injEq,
                    Prod.mk.injEq] at H
                  refine Or.inl ⟨rfl, mv, msets, σm, rfl, hms, H.1.symm, ?_⟩
                  rw [← H.1]
                  exact H.2.symm
            | false =>
              rw [hmod] at H
              simp only [Bool.false_eq_true, if_false, Option.some_bind,
                Option.some.injEq, Prod.mk.injEq] at H
              refine Or.inr ⟨rfl, H.1.symm, ?_⟩
              rw [← H.1]
              exact H.2.symm

theorem lookupA_map_update {l : List (Int × SetNode)} (g : SetNode → SetNode)
    (i j : Int) :
    lookupA (l.map fun p => if p.1 = i then (p.1, g p.2) else p) j
      = (lookupA l j).map (fun nd => if j = i then g nd else nd) := by
  induction l with
  | nil => rfl
  | cons p rest ih =>
    obtain ⟨k, nd⟩ := p
    have hmap : (((k, nd) :: rest).map fun p =>
          if p.1 = i then (p.1, g p.2) else p)
        = (if k = i then (k, g nd) else (k, nd)) ::
          (rest.map fun p => if p.1 = i then (p.1, g p.2) else p) := rfl
    rw [hmap]
    by_cases hki : k = i
    · rw [if_pos hki]
      by_cases hkj : k = j
      · rw [lookupA, if_pos hkj]
        conv_rhs => rw [lookupA, if_pos hkj]
        rw [Option.map_some']
        rw [if_pos (by rw [← hkj]; exact hki)]
    

      · rw [lookupA, if_neg hkj]
        conv_rhs => rw [lookupA, if_neg hkj]
        exact ih
    · rw [if_neg hki]
      by_cases hkj : k = j
      · rw [lookupA, if_pos hkj]
        conv_rhs => rw [lookupA, if_pos hkj]
        rw [Option.map_some']
        rw [if_neg (by rw [← hkj]; exact hki)]
      · rw [lookupA, if_neg hkj]
        conv_rhs => rw [lookupA, if_neg hkj]
        exact ih

theorem node?_setMinimal (σ : ZState) (i : Int) (b : Bool) (j : Int) :
    (σ.setMinimal i b).node? j =
      (σ.node? j).map (fun nd => if j = i then { nd with minimal := b } else nd) :=
  lookupA_map_update (fun nd => { nd with minimal := b }) i j

theorem node?_setMark (σ : ZState) (i : Int) (b : Bool) (j : Int) :
    (σ.setMark i b).node? j =
      (σ.node? j).map (fun nd => if j = i then { nd with mark := b } else nd) :=
  lookupA_map_update (fun nd => { nd with mark := b }) i j

theorem vid_ref (i : Int) : (VRef.ref i).vid = i := rfl

theorem vid_term (b : Bool) : (VRef.term b).vid = if b then 1 else 0 := rfl

theorem fetch_hit {σ : ZState} {index : Int} {high low : VRef} {ord : Int}
    {md : Bool} {j : Int}
    (h : lookupA σ.uniq (index, high.vid, low.vid) = some j) :
    fetchUniqueTable σ index high low ord md = (.ref j, σ) := by
  simp [fetchUniqueTable, h]

theorem fetch_miss {σ : ZState} {index : Int} {high low : VRef} {ord : Int}
    {md : Bool} (h : lookupA σ.uniq (index, high.vid, low.vid) = none) :
    fetchUniqueTable σ index high low ord md =
      (.ref σ.nextId, fetchFresh σ index high low ord md) := by
  simp [fetchUniqueTable, h]

theorem fetchFresh_nextId (σ : ZState) (index : Int) (high low : VRef)
    (ord : Int) (md : Bool) :
    (fetchFresh σ index high low ord md).nextId = σ.nextId + 1 := rfl

theorem fetchFresh_node_self (σ : ZState) (index : Int) (high low : VRef)
    (ord : Int) (md : Bool) :
    (fetchFresh σ index high low ord md).node? σ.nextId =
      some { index := index, order := ord, high := high, low := low,
             module := md, minimal := false, mark := false,
             cutSets := ([] : List (List Int)) } := by
  show lookupA ((σ.nextId,
      ({ index := index, order := ord, high := high, low := low,
         module := md, minimal := false, mark := false,
         cutSets := ([] : List (List Int)) } : SetNode)) :: σ.nodes)
      σ.nextId =
    some { index := index, order := ord, high := high, low := low,
           module := md, minimal := false, mark := false,
           cutSets := ([] : List (List Int)) }
  rw [lookupA, if_pos rfl]

theorem fetchFresh_node_ne (σ : ZState) (index : Int) (high low : VRef)
    (ord : Int) (md : Bool) {j : Int} (hne : j ≠ σ.nextId) :
    (fetchFresh σ index high low ord md).node? j = σ.node? j := by
  show lookupA ((σ.nextId, _) :: σ.nodes) j = _
  rw [lookupA, if_neg (fun hc => hne hc.symm)]
  rfl

/-- Two valid references with the same id are the same reference: node
ids start at 2, the terminals own the ids 0 and 1. -/
theorem vid_determines {σ : ZState}
    (hids : ∀ i nd, σ.node? i = some nd → 2 ≤ i ∧ i < σ.nextId)
    {a b : VRef} (ha : ValidRef σ a) (hb : ValidRef σ b)
    (h : a.vid = b.vid) : a = b := by
  cases a with
  | term x =>
    cases b with
    | term y => cases x <;> cases y <;> simp_all [VRef.vid]
    | ref j =>
      rcases hb with hb | ⟨nd, hnd⟩
      · simp [VRef.isTerm] at hb
      · have hj : 2 ≤ j := (hids _ _ hnd).1
        cases x <;> simp [vid_term, vid_ref] at h <;> omega
  | ref i =>
    cases b with
    | term y =>
      rcases ha with ha | ⟨nd, hnd⟩
      · simp [VRef.isTerm] at ha
      · have hi : 2 ≤ i := (hids _ _ hnd).1
        cases y <;> simp [vid_term, vid_ref] at h <;> omega
    | ref j => simp only [vid_ref] at h; rw [h]

theorem Grows_refl (σ : ZState) : Grows σ σ :=
  fun _ nd h => ⟨nd, h, rfl, rfl, rfl, rfl, id⟩

theorem Grows_trans {σ₁ σ₂ σ₃ : ZState} (g₁ : Grows σ₁ σ₂)
    (g₂ : Grows σ₂ σ₃) : Grows σ₁ σ₃ := by
  intro i nd h
  obtain ⟨nd', h', hi, ho, hh, hl, hm⟩ := g₁ i nd h
  obtain ⟨nd'', h'', hi', ho', hh', hl', hm'⟩ := g₂ i nd' h'
  exact ⟨nd'', h'', hi'.trans hi, ho'.trans ho, hh'.trans hh, hl'.trans hl,
    fun hf => hm' (hm hf)⟩

theorem Grows_of_nodes_eq {σ σ' : ZState} (h : σ'.nodes = σ.nodes) :
    Grows σ σ' := by
  intro i nd hi
  refine ⟨nd, ?_, rfl, rfl, rfl, rfl, id⟩
  unfold ZState.node? at hi ⊢
  rw [h]
  exact hi

theorem Grows_subTab (σ : ZState) (x : List ((Int × Int) × VRef)) :
    Grows σ { σ with subTab := x } := Grows_of_nodes_eq rfl

theorem Grows_minTab (σ : ZState) (x : List (Int × VRef)) :
    Grows σ { σ with minTab := x } := Grows_of_nodes_eq rfl

theorem Grows_setMinimal_true (σ : ZState) (i : Int) :
    Grows σ (σ.setMinimal i true) := by
  intro j nd hj
  rw [node?_setMinimal, hj]
  by_cases hji : j = i
  · exact ⟨{ nd with minimal := true }, by simp [hji], rfl, rfl, rfl, rfl,
      fun _ => rfl⟩
  · exact ⟨nd, by simp [hji], rfl, rfl, rfl, rfl, id⟩

theorem Grows_fetch (σ : ZState) (index : Int) (high low : VRef) (ord : Int)
    (md : Bool) (hids : ∀ i nd, σ.node? i = some nd → 2 ≤ i ∧ i < σ.nextId) :
    Grows σ (fetchUniqueTable σ index high low ord md).2 := by
  cases hlk : lookupA σ.uniq (index, high.vid, low.vid) with
  | some j => rw [fetch_hit hlk]; exact Grows_refl σ
  | none =>
    rw [fetch_miss hlk]
    intro i nd hi
    have hlt : i < σ.nextId := (hids _ _ hi).2
    refine ⟨nd, ?_, rfl, rfl, rfl, rfl, id⟩
    rw [fetchFresh_node_ne σ index high low ord md (by omega)]
    exact hi

theorem Flagged_mono {σ σ' : ZState} (g : Grows σ σ') {v : VRef}
    (h : Flagged σ v) : Flagged σ' v := by
  induction h with
  | term b => exact .term b
  | node i nd hnd hfl _ _ ihh ihl =>
    obtain ⟨nd', hnd', _, _, hhigh, hlow, hmin⟩ := g i nd hnd
    exact .node i nd' hnd' (hmin hfl) (by rw [hhigh]; exact ihh)
      (by rw [hlow]; exact ihl)

theorem ValidRef_mono {σ σ' : ZState} (g : Grows σ σ') {v : VRef}
    (h : ValidRef σ v) : ValidRef σ' v := by
  cases v with
  | term b => exact Or.inl rfl
  | ref j =>
    rcases h with h | ⟨nd, hnd⟩
    · simp [VRef.isTerm] at h
    · obtain ⟨nd', hnd', _⟩ := g j nd hnd
      exact Or.inr ⟨nd', hnd'⟩

/-- A hereditarily flagged reference is a terminal or a live node. -/
theorem Flagged.valid {σ : ZState} {v : VRef} (h : Flagged σ v) :
    ValidRef σ v := by
  cases h with
  | term b => exact Or.inl rfl
  | node i nd hnd _ _ _ => exact Or.inr ⟨nd, hnd⟩

/-- Extending the subsume table with a hereditarily flagged live result
preserves the invariant. -/
theorem MinInv_subTab_cons {σ : ZState} (inv : MinInv σ)
    {k : Int × Int} {r : VRef} (hr : Flagged σ r) :
    MinInv { σ with subTab := (k, r) :: σ.subTab } := by
  obtain ⟨wf, hmin, hsub, hher⟩ := inv
  have g : Grows σ { σ with subTab := (k, r) :: σ.subTab } :=
    Grows_of_nodes_eq rfl
  refine ⟨wf, ?_, ?_, ?_⟩
  · intro p hp
    exact Flagged_mono g (hmin p hp)
  · intro p hp
    rcases List.mem_cons.mp hp with rfl | hp'
    · exact Flagged_mono g hr
    · exact Flagged_mono g (hsub p hp')
  · intro i nd hnd hf
    exact Flagged_mono g (hher i nd hnd hf)

/-- Extending the minimal-results memo with a hereditarily flagged live
result preserves the invariant. -/
theorem MinInv_minTab_cons {σ : ZState} (inv : MinInv σ)
    {k : Int} {r : VRef} (hr : Flagged σ r) :
    MinInv { σ with minTab := (k, r) :: σ.minTab } := by
  obtain ⟨wf, hmin, hsub, hher⟩ := inv
  have g : Grows σ { σ with minTab := (k, r) :: σ.minTab } :=
    Grows_of_nodes_eq rfl
  refine ⟨wf, ?_, ?_, ?_⟩
  · intro p hp
    rcases List.mem_cons.mp hp with rfl | hp'
    · exact Flagged_mono g hr
    · exact Flagged_mono g (hmin p hp')
  · intro p hp
    exact Flagged_mono g (hsub p hp)
  · intro i nd hnd hf
    exact Flagged_mono g (hher i nd hnd hf)

/-- Setting the `is_minimal` flag of a node whose children are
hereditarily flagged preserves the invariant and flags the node. -/
theorem MinInv_setFlag {σ : ZState} (inv : MinInv σ) {j : Int}
    {nd : SetNode} (hnd : σ.node? j = some nd) (hh : Flagged σ nd.high)
    (hl : Flagged σ nd.low) :
    MinInv (σ.setMinimal j true) ∧ Grows σ (σ.setMinimal j true) ∧
    Flagged (σ.setMinimal j true) (.ref j) := by
  obtain ⟨⟨h2, hids, hch, huq⟩, hmin, hsub, hher⟩ := inv
  have g : Grows σ (σ.setMinimal j true) := Grows_setMinimal_true σ j
  have hnode : (σ.setMinimal j true).node? j =
      some { nd with minimal := true } := by
    rw [node?_setMinimal, hnd]
    simp
  have hflag : Flagged (σ.setMinimal j true) (.ref j) :=
    .node j { nd with minimal := true } hnode rfl
      (Flagged_mono g hh) (Flagged_mono g hl)
  refine ⟨⟨⟨h2, ?_, ?_, ?_⟩, ?_, ?_, ?_⟩, g, hflag⟩
  · intro i nd' hnd'
    rw [node?_setMinimal] at hnd'
    cases ho : σ.node? i with
    | none => rw [ho] at hnd'; simp at hnd'
    | some nd₀ => exact hids i nd₀ ho
  · intro i nd' hnd'
    rw [node?_setMinimal] at hnd'
    cases ho : σ.node? i with
    | none => rw [ho] at hnd'; simp at hnd'
    | some nd₀ =>
      rw [ho] at hnd'
      simp only [Option.map_some', Option.some.injEq] at hnd'
      have hv := hch i nd₀ ho
      by_cases hij : i = j
      · rw [if_pos hij] at hnd'
        rw [← hnd']
        exact ⟨ValidRef_mono g hv.1, ValidRef_mono g hv.2⟩
      · rw [if_neg hij] at hnd'
        rw [← hnd']
        exact ⟨ValidRef_mono g hv.1, ValidRef_mono g hv.2⟩
  · intro k j' hkj
    obtain ⟨nd₀, hnd₀, hi, hhv, hlv⟩ := huq k j' hkj
    by_cases hij : j' = j
    · subst hij
      have : nd₀ = nd := by
        rw [hnd] at hnd₀
        exact (Option.some.inj hnd₀).symm
      subst this
      refine ⟨{ nd₀ with minimal := true }, ?_, hi, hhv, hlv⟩
      rw [node?_setMinimal, hnd₀]
      simp
    · refine ⟨nd₀, ?_, hi, hhv, hlv⟩
      rw [node?_setMinimal, hnd₀]
      simp [hij]
  · intro p hp
    exact Flagged_mono g (hmin p hp)
  · intro p hp
    exact Flagged_mono g (hsub p hp)
  · intro i nd' hnd' hf
    rw [node?_setMinimal] at hnd'
    cases ho : σ.node? i with
    | none => rw [ho] at hnd'; simp at hnd'
    | some nd₀ =>
      rw [ho] at hnd'
      simp only [Option.map_some', Option.some.injEq] at hnd'
      by_cases hij : i = j
      · subst hij
        exact hflag
      · rw [if_neg hij] at hnd'
        rw [← hnd'] at hf
        exact Flagged_mono g (hher i nd₀ ho hf)

/-- `FetchUniqueTable` preserves the invariant and yields a live node
with the requested index and children. -/
theorem fetch_MinInv {σ : ZState} {index : Int} {high low : VRef}
    {ord : Int} {md : Bool} (inv : MinInv σ) (hh : ValidRef σ high)
    (hl : ValidRef σ low) :
    MinInv (fetchUniqueTable σ index high low ord md).2 ∧
    Grows σ (fetchUniqueTable σ index high low ord md).2 ∧
    (∃ j nd, (fetchUniqueTable σ index high low ord md).1 = .ref j ∧
      (fetchUniqueTable σ index high low ord md).2.node? j = some nd ∧
      nd.index = index ∧ nd.high = high ∧ nd.low = low) := by
  obtain ⟨⟨h2, hids, hch, huq⟩, hmin, hsub, hher⟩ := inv
  have g : Grows σ (fetchUniqueTable σ index high low ord md).2 :=
    Grows_fetch σ index high low ord md hids
  cases hlk : lookupA σ.uniq (index, high.vid, low.vid) with
  | some j =>
    rw [fetch_hit hlk]
    obtain ⟨nd, hnd, hi, hhv, hlv⟩ := huq _ j hlk
    have hhe : nd.high = high :=
      vid_determines hids (hch _ _ hnd).1 hh hhv
    have hle : nd.low = low :=
      vid_determines hids (hch _ _ hnd).2 hl hlv
    exact ⟨⟨⟨h2, hids, hch, huq⟩, hmin, hsub, hher⟩, Grows_refl σ,
      j, nd, rfl, hnd, hi, hhe, hle⟩
  | none =>
    rw [fetch_miss hlk] at g ⊢
    show MinInv (fetchFresh σ index high low ord md) ∧
      Grows σ (fetchFresh σ index high low ord md) ∧
      (∃ j nd, (VRef.ref σ.nextId : VRef) = .ref j ∧
        (fetchFresh σ index high low ord md).node? j = some nd ∧
        nd.index = index ∧ nd.high = high ∧ nd.low = low)
    have g' : Grows σ (fetchFresh σ index high low ord md) := g
    have hnew := fetchFresh_node_self σ index high low ord md
    have hnext := fetchFresh_nextId σ index high low ord md
    refine ⟨⟨⟨by omega, ?_, ?_, ?_⟩, ?_, ?_, ?_⟩, g',
      σ.nextId, _, rfl, hnew, rfl, rfl, rfl⟩
    · intro i nd hnd
      by_cases hne : i = σ.nextId
      · subst hne
        omega
      · rw [fetchFresh_node_ne σ index high low ord md hne] at hnd
        have := hids i nd hnd
        omega
    · intro i nd hnd
      by_cases hne : i = σ.nextId
      · subst hne
        rw [hnew] at hnd
        obtain rfl := Option.some.inj hnd
        exact ⟨ValidRef_mono g' hh, ValidRef_mono g' hl⟩
      · rw [fetchFresh_node_ne σ index high low ord md hne] at hnd
        have := hch i nd hnd
        exact ⟨ValidRef_mono g' this.1, ValidRef_mono g' this.2⟩
    · intro k j hkj
      have hkj' : lookupA (((index, high.vid, low.vid), σ.nextId) :: σ.uniq) k
          = some j := hkj
      rw [lookupA] at hkj'
      by_cases hk : ((index, high.vid, low.vid) : Int × Int × Int) = k
      · rw [if_pos hk] at hkj'
        obtain rfl := Option.some.inj hkj'
        refine ⟨_, hnew, ?_, ?_, ?_⟩ <;> rw [← hk]
      · rw [if_neg hk] at hkj'
        obtain ⟨nd, hnd, hi, hhv, hlv⟩ := huq k j hkj'
        have hjne : j ≠ σ.nextId := by
          have := hids _ _ hnd
          omega
        refine ⟨nd, ?_, hi, hhv, hlv⟩
        rw [fetchFresh_node_ne σ index high low ord md hjne]
        exact hnd
    · intro p hp
      exact Flagged_mono g' (hmin p hp)
    · intro p hp
      exact Flagged_mono g' (hsub p hp)
    · intro i nd hnd hf
      by_cases hne : i = σ.nextId
      · subst hne
        rw [hnew] at hnd
        obtain rfl := Option.some.inj hnd
        simp at hf
      · rw [fetchFresh_node_ne σ index high low ord md hne] at hnd
        exact Flagged_mono g' (hher i nd hnd hf)

/-- `Subsume` preserves the flag invariant: given a hereditarily flagged
high operand, the result is hereditarily flagged and the state grows. -/
theorem subsume_flag :
    ∀ (f : Nat) {h l : VRef} {σ : ZState} {r : VRef} {σ' : ZState},
    subsume f h l σ = some (r, σ') → MinInv σ → Flagged σ h →
    MinInv σ' ∧ Flagged σ' r ∧ Grows σ σ' := by
  intro f
  induction f with
  | zero => intro h l σ r σ' H; simp [subsume] at H
  | succ f ih =>
    intro h l σ r σ' H inv fh
    rcases subsume_inv H with
      ⟨b, rfl, rfl, rfl⟩ | ⟨li, v, rfl, rfl, rfl, rfl⟩ |
      ⟨li, hi, r₀, rfl, rfl, hm, rfl, rfl⟩ |
      ⟨li, hi, hn, ln, rfl, rfl, hm, hhn, hln, hrest⟩
    · cases b
      · exact ⟨inv, fh, Grows_refl _⟩
      · exact ⟨inv, .term false, Grows_refl _⟩
    · exact ⟨inv, .term v, Grows_refl _⟩
    · exact ⟨inv, inv.2.2.1 _ (lookupA_mem hm), Grows_refl _⟩
    · have fhh : Flagged σ hn.high ∧ Flagged σ hn.low ∧ hn.minimal = true := by
        cases fh with
        | node _ nd hnd hf hh hl =>
          have : nd = hn := by
            rw [hhn] at hnd
            exact (Option.some.inj hnd).symm
          subst this
          exact ⟨hh, hl, hf⟩
      obtain ⟨fhigh, flow, hnmin⟩ := fhh
      rcases hrest with ⟨hord, r₀, σ₁, hrec, rfl, rfl⟩ |
        ⟨hord, subhigh, sublow, σ₂, hbranch, hout⟩
      · obtain ⟨inv₁, f₁, g₁⟩ := ih hrec inv fh
        exact ⟨MinInv_subTab_cons inv₁ f₁,
          Flagged_mono (Grows_subTab σ₁ _) f₁,
          Grows_trans g₁ (Grows_subTab σ₁ _)⟩
      · have hmain : MinInv σ₂ ∧ Flagged σ₂ subhigh ∧ Flagged σ₂ sublow ∧
            Grows σ σ₂ := by
          rcases hbranch with ⟨hsame, s₁, σa, σb, h₁, h₂, h₃⟩ |
            ⟨hsame, σa, h₁, h₂⟩
          · obtain ⟨inva, fa, ga⟩ := ih h₁ inv fhigh
            obtain ⟨invb, fb, gb⟩ := ih h₂ inva fa
            obtain ⟨inv₂, fc, gc⟩ := ih h₃ invb
              (Flagged_mono (Grows_trans ga gb) flow)
            exact ⟨inv₂, Flagged_mono gc fb, fc,
              Grows_trans ga (Grows_trans gb gc)⟩
          · obtain ⟨inva, fa, ga⟩ := ih h₁ inv fhigh
            obtain ⟨inv₂, fb, gb⟩ := ih h₂ inva (Flagged_mono ga flow)
            exact ⟨inv₂, Flagged_mono gb fa, fb, Grows_trans ga gb⟩
        obtain ⟨inv₂, fsh, fsl, gfull⟩ := hmain
        rcases hout with ⟨hterm, rfl, rfl⟩ | ⟨hterm, hn₂, hn₂eq, rfl, rfl⟩
        · exact ⟨MinInv_subTab_cons inv₂ fsl,
            Flagged_mono (Grows_subTab σ₂ _) fsl,
            Grows_trans gfull (Grows_subTab σ₂ _)⟩
        · obtain ⟨invf, gf, j, ndj, hj1, hj2, hidx, hhe, hle⟩ :=
            fetch_MinInv inv₂ fsh.valid fsl.valid
          have gσf : Grows σ
              (fetchUniqueTable σ₂ hn.index subhigh sublow hn.order
                hn.module).2 := Grows_trans gfull gf
          have hn₂min : hn₂.minimal = true := by
            obtain ⟨nd', hnd', _, _, _, _, hmin'⟩ := gσf hi hn hhn
            have : nd' = hn₂ := by
              rw [hn₂eq] at hnd'
              exact (Option.some.inj hnd').symm
            rw [← this]
            exact hmin' hnmin
          rw [hn₂min]
          rw [hj1]
          have fj_high : Flagged
              (fetchUniqueTable σ₂ hn.index subhigh sublow hn.order
                hn.module).2 ndj.high := by
            rw [hhe]
            exact Flagged_mono gf fsh
          have fj_low : Flagged
              (fetchUniqueTable σ₂ hn.index subhigh sublow hn.order
                hn.module).2 ndj.low := by
            rw [hle]
            exact Flagged_mono gf fsl
          obtain ⟨invs, gs, fs⟩ := MinInv_setFlag invf hj2 fj_high fj_low
          have hvid : (VRef.ref j).vid = j := rfl
          rw [hvid]
          refine ⟨MinInv_subTab_cons invs fs,
            Flagged_mono (Grows_subTab _ _) fs, ?_⟩
          exact Grows_trans gσf (Grows_trans gs (Grows_subTab _ _))

/-- `Minimize` preserves the flag invariant: the result is hereditarily
flagged `is_minimal` and the state grows. -/
theorem minimize_flag :
    ∀ (f : Nat) {v : VRef} {σ : ZState} {r : VRef} {σ' : ZState},
    minimize f v σ = some (r, σ') → MinInv σ →
    MinInv σ' ∧ Flagged σ' r ∧ Grows σ σ' := by
  intro f
  induction f with
  | zero => intro v σ r σ' H; simp [minimize] at H
  | succ f ih =>
    intro v σ r σ' H inv
    rcases minimize_inv H with
      ⟨b, rfl, rfl, rfl⟩ |
      ⟨i, nd, rfl, hnd, hmin, rfl, rfl⟩ |
      ⟨i, nd, r₀, rfl, hnd, hmin, hmemo, rfl, rfl⟩ |
      ⟨i, nd, h₁, σ₁, l₁, σ₂, h₂, σ₃, rfl, hnd, hmin, hmemo,
        hh, hl, hs, hrest⟩
    · exact ⟨inv, .term b, Grows_refl _⟩
    · exact ⟨inv, inv.2.2.2 i nd hnd hmin, Grows_refl _⟩
    · exact ⟨inv, inv.2.1 _ (lookupA_mem hmemo), Grows_refl _⟩
    · obtain ⟨inv₁, f₁, g₁⟩ := ih hh inv
      obtain ⟨inv₂, f₂, g₂⟩ := ih hl inv₁
      obtain ⟨inv₃, f₃, g₃⟩ := subsume_flag f hs inv₂ (Flagged_mono g₂ f₁)
      have fl₃ : Flagged σ₃ l₁ := Flagged_mono g₃ f₂
      have gσ₃ : Grows σ σ₃ := Grows_trans g₁ (Grows_trans g₂ g₃)
      rcases hrest with ⟨hz, rfl, rfl⟩ | ⟨hz, rfl, rfl⟩
      · exact ⟨MinInv_minTab_cons inv₃ fl₃,
          Flagged_mono (Grows_minTab σ₃ _) fl₃,
          Grows_trans gσ₃ (Grows_minTab σ₃ _)⟩
      · obtain ⟨invf, gf, j, ndj, hj1, hj2, hidx, hhe, hle⟩ :=
          fetch_MinInv inv₃ f₃.valid fl₃.valid
        rw [hj1]
        have fj_high : Flagged
            (fetchUniqueTable σ₃ nd.index h₂ l₁ nd.order nd.module).2
            ndj.high := by
          rw [hhe]
          exact Flagged_mono gf f₃
        have fj_low : Flagged
            (fetchUniqueTable σ₃ nd.index h₂ l₁ nd.order nd.module).2
            ndj.low := by
          rw [hle]
          exact Flagged_mono gf fl₃
        obtain ⟨invs, gs, fs⟩ := MinInv_setFlag invf hj2 fj_high fj_low
        have hvid : (VRef.ref j).vid = j := rfl
        rw [hvid]
        refine ⟨MinInv_minTab_cons invs fs,
          Flagged_mono (Grows_minTab _ _) fs, ?_⟩
        exact Grows_trans gσ₃
          (Grows_trans gf (Grows_trans gs (Grows_minTab _ _)))

/-- A hereditarily flagged vertex is returned unchanged by `Minimize`
with any positive fuel: terminals return themselves and a node flagged
`is_minimal` returns itself before recursing. -/
theorem Flagged_minimize_succ {σ : ZState} {r : VRef} (h : Flagged σ r)
    (f : Nat) : minimize (Nat.succ f) r σ = some (r, σ) := by
  cases h with
  | term b => rfl
  | node i nd hnd hmin _ _ => simp [minimize, hnd, hmin]

/-- The example state satisfies the minimization invariant: ids lie in
the window, children are live, the unique table is coherent, the memo
tables are empty and no node is flagged. -/
theorem MinInv_exState : MinInv exState := by
  have hmem : ∀ {i : Int} {nd : SetNode}, exState.node? i = some nd →
      (i = 2 ∧ nd = nodeA) ∨ (i = 3 ∧ nd = nodeB) ∨ (i = 4 ∧ nd = nodeV) := by
    intro i nd h
    have h' := lookupA_mem h
    simp only [exState, List.mem_cons, List.not_mem_nil, or_false,
      Prod.mk.injEq] at h'
    tauto
  refine ⟨⟨by decide, ?_, ?_, ?_⟩, ?_, ?_, ?_⟩
  · intro i nd h
    rcases hmem h with ⟨rfl, rfl⟩ | ⟨rfl, rfl⟩ | ⟨rfl, rfl⟩ <;>
      exact ⟨by decide, by decide⟩
  · intro i nd h
    rcases hmem h with ⟨rfl, rfl⟩ | ⟨rfl, rfl⟩ | ⟨rfl, rfl⟩
    · exact ⟨Or.inl rfl, Or.inl rfl⟩
    · exact ⟨Or.inl rfl, Or.inr ⟨nodeA, by decide⟩⟩
    · exact ⟨Or.inr ⟨nodeA, by decide⟩, Or.inr ⟨nodeB, by decide⟩⟩
  · intro k j h
    have h' := lookupA_mem h
    simp only [exState, List.mem_cons, List.not_mem_nil, or_false,
      Prod.mk.injEq] at h'
    rcases h' with ⟨rfl, rfl⟩ | ⟨rfl, rfl⟩ | ⟨rfl, rfl⟩
    · exact ⟨nodeA, by decide, by decide, by decide, by decide⟩
    · exact ⟨nodeB, by decide, by decide, by decide, by decide⟩
    · exact ⟨nodeV, by decide, by decide, by decide, by decide⟩
  · intro p hp
    simp [exState] at hp
  · intro p hp
    simp [exState] at hp
  · intro i nd h hf
    rcases hmem h with ⟨rfl, rfl⟩ | ⟨rfl, rfl⟩ | ⟨rfl, rfl⟩ <;>
      simp [nodeA, nodeB, nodeV] at hf

/-- Storing a bounded cut-set list on a node keeps the caches bounded. -/
theorem cachePres_setCutSets (σ : ZState) (i : Int) (cs : List (List Int))
    (hcs : ∀ s ∈ cs, (s.length : Int) ≤ σ.limitOrder) :
    cachePres σ (σ.setCutSets i cs) := by
  refine ⟨rfl, fun h => ?_⟩
  simp only [ZState.setCutSets, cacheBoundedB, List.all_map, List.all_eq_true,
    decide_eq_true_eq] at h ⊢
  intro p hp
  simp only [Function.comp_apply]
  by_cases hpi : p.1 = i
  · rw [if_pos hpi]
    simp only [List.all_eq_true, decide_eq_true_eq]
    intro s hs
    exact hcs s hs
  · rw [if_neg hpi]
    simp only [List.all_eq_true, decide_eq_true_eq]
    exact h p hp

/-- `Subsume` preserves the order bound and the cache boundedness. -/
theorem subsume_cachePres :
    ∀ (f : Nat) {h l : VRef} {σ : ZState} {r : VRef} {σ' : ZState},
    subsume f h l σ = some (r, σ') → cachePres σ σ' := by
  intro f
  induction f with
  | zero => intro h l σ r σ' H; simp [subsume] at H
  | succ f ih =>
    intro h l σ r σ' H
    rcases subsume_inv H with
      ⟨b, rfl, rfl, rfl⟩ | ⟨li, v, rfl, rfl, rfl, rfl⟩ |
      ⟨li, hi, r₀, rfl, rfl, hm, rfl, rfl⟩ |
      ⟨li, hi, hn, ln, rfl, rfl, hm, hhn, hln, hrest⟩
    · exact cachePres_refl _
    · exact cachePres_refl _
    · exact cachePres_refl _
    · rcases hrest with ⟨hord, r₀, σ₁, hrec, rfl, rfl⟩ |
        ⟨hord, subhigh, sublow, σ₂, hbranch, hout⟩
      · exact cachePres_trans (ih hrec) (cachePres_subTab σ₁ _)
      · have hchain : cachePres σ σ₂ := by
          rcases hbranch with ⟨hsame, s₁, σa, σb, h₁, h₂, h₃⟩ |
            ⟨hsame, σa, h₁, h₂⟩
          · exact cachePres_trans (ih h₁)
              (cachePres_trans (ih h₂) (ih h₃))
          · exact cachePres_trans (ih h₁) (ih h₂)
        rcases hout with ⟨hterm, rfl, rfl⟩ | ⟨hterm, hn₂, hn₂eq, rfl, rfl⟩
        · exact cachePres_trans hchain (cachePres_subTab σ₂ _)
        · exact cachePres_trans hchain
            (cachePres_trans
              (cachePres_fetch σ₂ hn.index subhigh sublow hn.order hn.module)
              (cachePres_trans (cachePres_setMinimal _ _ _)
                (cachePres_subTab _ _)))

/-- `Minimize` preserves the order bound and the cache boundedness. -/
theorem minimize_cachePres :
    ∀ (f : Nat) {v : VRef} {σ : ZState} {r : VRef} {σ' : ZState},
    minimize f v σ = some (r, σ') → cachePres σ σ' := by
  intro f
  induction f with
  | zero => intro v σ r σ' H; simp [minimize] at H
  | succ f ih =>
    intro v σ r σ' H
    rcases minimize_inv H with
      ⟨b, rfl, rfl, rfl⟩ | ⟨i, nd, rfl, hnd, hmin, rfl, rfl⟩ |
      ⟨i, nd, r₀, rfl, hnd, hmin, hmemo, rfl, rfl⟩ |
      ⟨i, nd, h₁, σ₁, l₁, σ₂, h₂, σ₃, rfl, hnd, hmin, hmemo, hh, hl, hs, hout⟩
    · exact cachePres_refl _
    · exact cachePres_refl _
    · exact cachePres_refl _
    · have hchain : cachePres σ σ₃ :=
        cachePres_trans (ih hh)
          (cachePres_trans (ih hl) (subsume_cachePres f hs))
      rcases hout with ⟨hterm, rfl, rfl⟩ | ⟨hterm, rfl, rfl⟩
      · exact cachePres_trans hchain (cachePres_minTab σ₃ _)
      · exact cachePres_trans hchain
          (cachePres_trans
            (cachePres_fetch σ₃ nd.index h₂ l₁ nd.order nd.module)
            (cachePres_trans (cachePres_setMinimal _ _ _)
              (cachePres_minTab _ _)))

/-- The module-minimization loop preserves the caches. -/
theorem minimizeModules_cachePres :
    ∀ (ms : List (Int × VRef)) (f : Nat) {σ : ZState}
      {res : List (Int × VRef)} {σ' : ZState},
    minimizeModules f ms σ = some (res, σ') → cachePres σ σ' := by
  intro ms
  induction ms with
  | nil =>
    intro f σ res σ' H
    simp only [minimizeModules, Option.some.injEq, Prod.mk.injEq] at H
    rw [← H.2]
    exact cachePres_refl σ
  | cons p rest ih =>
    intro f σ res σ' H
    obtain ⟨k, v⟩ := p
    simp only [minimizeModules, Bind.bind] at H
    cases hm : minimize f v σ with
    | none => rw [hm] at H; simp at H
    | some q =>
      rw [hm] at H
      obtain ⟨r, σ₁⟩ := q
      simp only [Option.some_bind] at H
      cases hrest : minimizeModules f rest σ₁ with
      | none => rw [hrest] at H; simp at H
      | some q₂ =>
        rw [hrest] at H
        obtain ⟨rs, σ₂⟩ := q₂
        simp only [Option.some_bind, Option.some.injEq, Prod.mk.injEq] at H
        rw [← H.2]
        exact cachePres_trans (minimize_cachePres f hm) (ih f hrest)

/-- Every cut set emitted by `GenerateCutSets` is within the order bound,
and the caches stay bounded, for any caching policy. -/
theorem generateCutSets_bound :
    ∀ (f : Nat) {uc : Int → Bool} {v : VRef} {σ : ZState}
      {res : List (List Int)} {σ' : ZState},
    generateCutSets f uc v σ = some (res, σ') →
    0 ≤ σ.limitOrder → cacheBoundedB σ = true →
    (∀ s ∈ res, (s.length : Int) ≤ σ.limitOrder) ∧ cachePres σ σ' := by
  intro f
  induction f with
  | zero => intro uc v σ res σ' H; simp [generateCutSets] at H
  | succ f ih =>
    intro uc v σ res σ' H hL hb
    rcases generateCutSets_inv H with
      ⟨b, rfl, rfl, rfl⟩ | ⟨i, nd, rfl, hnd, hmark, rfl, rfl⟩ |
      ⟨i, nd, low, σ₁, high, σ₂, rfl, hnd, hmark, hlow, hhigh, hrest⟩
    · refine ⟨?_, cachePres_refl _⟩
      cases b <;> simp
      exact hL
    · refine ⟨?_, cachePres_refl _⟩
      have hmem := lookupA_mem hnd
      simp only [cacheBoundedB, List.all_eq_true] at hb
      have := hb (i, nd) hmem
      simp only [List.all_eq_true, decide_eq_true_eq] at this
      exact this
    · have p₀ : cachePres σ (σ.setMark i true) := cachePres_setMark σ i true
      have hL₀ : 0 ≤ (σ.setMark i true).limitOrder := by rw [p₀.1]; exact hL
      have hb₀ : cacheBoundedB (σ.setMark i true) = true := p₀.2 hb
      obtain ⟨bLow, p₁⟩ := ih hlow hL₀ hb₀
      have hL₁ : 0 ≤ σ₁.limitOrder := by rw [p₁.1]; exact hL₀
      have hb₁ : cacheBoundedB σ₁ = true := p₁.2 hb₀
      obtain ⟨bHigh, p₂⟩ := ih hhigh hL₁ hb₁
      have hL₂ : σ₂.limitOrder = σ.limitOrder := by
        rw [p₂.1, p₁.1, p₀.1]
      have hb₂ : cacheBoundedB σ₂ = true := p₂.2 hb₁
      have hpre : cachePres σ σ₂ :=
        cachePres_trans p₀ (cachePres_trans p₁ p₂)
      have bLow' : ∀ s ∈ low, (s.length : Int) ≤ σ.limitOrder := by
        intro s hs
        have := bLow s hs
        rwa [p₀.1] at this
      have bHigh' : ∀ s ∈ high, (s.length : Int) ≤ σ.limitOrder := by
        intro s hs
        have := bHigh s hs
        rwa [p₁.1, p₀.1] at this
      rcases hrest with ⟨hmod, mv, msets, σm, hmv, hms, hres, hσ'⟩ |
        ⟨hmod, hres, hσ'⟩
      · have hmodule := ih hms (by rw [hL₂]; exact hL) hb₂
        have pm : cachePres σ₂ σm := hmodule.2
        have hLm : σm.limitOrder = σ.limitOrder := by rw [pm.1, hL₂]
        have hbound : ∀ s ∈ res, (s.length : Int) ≤ σ.limitOrder := by
          subst hres
          intro s hs
          rcases List.mem_append.mp hs with hsl | hsr
          · exact bLow' s hsl
          · obtain ⟨cs, hcs, hcs'⟩ := List.mem_flatMap.mp hsr
            obtain ⟨ms, hmss, hguard⟩ := List.mem_filterMap.mp hcs'
            by_cases hg : ((cs.length + ms.length : Nat) : Int) > σm.limitOrder
            · rw [if_pos hg] at hguard
              exact absurd hguard (by simp)
            · rw [if_neg hg] at hguard
              obtain rfl := Option.some.inj hguard
              push_neg at hg
              rw [hLm] at hg
              simpa [List.length_append] using hg
        refine ⟨hbound, ?_⟩
        have hchain : cachePres σ σm := cachePres_trans hpre pm
        have hboundm : ∀ s ∈ res, (s.length : Int) ≤ σm.limitOrder := by
          intro s hs
          rw [hLm]
          exact hbound s hs
        subst hσ'
        by_cases huc : uc i
        · rw [if_pos huc]
          refine cachePres_trans hchain
            (cachePres_trans (cachePres_cutBranches σm i) ?_)
          exact cachePres_setCutSets _ i res (by
            intro s hs
            exact hboundm s hs)
        · rw [if_neg huc]
          exact cachePres_trans hchain (cachePres_cutBranches σm i)
      · have hbound : ∀ s ∈ res, (s.length : Int) ≤ σ.limitOrder := by
          subst hres
          intro s hs
          rcases List.mem_append.mp hs with hsl | hsr
          · exact bLow' s hsl
          · obtain ⟨cs, hcs, hguard⟩ := List.mem_filterMap.mp hsr
            by_cases hg : ((cs.length : Nat) : Int) = σ₂.limitOrder
            · rw [if_pos hg] at hguard
              exact absurd hguard (by simp)
            · rw [if_neg hg] at hguard
              obtain rfl := Option.some.inj hguard
              have h1 := bHigh' cs hcs
              rw [hL₂] at hg
              simp only [List.length_append, List.length_cons,
                List.length_nil]
              push_cast
              omega
        refine ⟨hbound, ?_⟩
        have hbound₂ : ∀ s ∈ res, (s.length : Int) ≤ σ₂.limitOrder := by
          intro s hs
          rw [hL₂]
          exact hbound s hs
        subst hσ'
        by_cases huc : uc i
        · rw [if_pos huc]
          refine cachePres_trans hpre
            (cachePres_trans (cachePres_cutBranches σ₂ i) ?_)
          exact cachePres_setCutSets _ i res (by
            intro s hs
            exact hbound₂ s hs)
        · rw [if_neg huc]
          exact cachePres_trans hpre (cachePres_cutBranches σ₂ i)

/-! ### Family-semantics lemmas (C6) -/

theorem posLt_trans {p q r : Int × Int} (h₁ : posLt p q) (h₂ : posLt q r) :
    posLt p r := by
  unfold posLt at *
  omega

theorem posLt_irrefl (p : Int × Int) : ¬ posLt p p := by
  unfold posLt
  omega

/-- One-step unfolding of `fam` on a node reference. -/
theorem fam_succ_ref (f : Nat) (σ : ZState) (i : Int) :
    fam (Nat.succ f) σ (.ref i) =
      (σ.node? i).bind fun nd => (fam f σ nd.high).bind fun hs =>
        (fam f σ nd.low).bind fun ls =>
          some (hs.image (insert nd.index) ∪ ls) := rfl

/-- One-step unfolding of `fam` on a terminal. -/
theorem fam_succ_term (f : Nat) (σ : ZState) (b : Bool) :
    fam (Nat.succ f) σ (.term b) = some (if b then {∅} else ∅) := rfl

/-- `fam` is monotone in its fuel. -/
theorem fam_mono : ∀ {f : Nat} {σ : ZState} {v : VRef} {F},
    fam f σ v = some F → fam (Nat.succ f) σ v = some F := by
  intro f
  induction f with
  | zero => intro σ v F h; simp [fam] at h
  | succ f ih =>
    intro σ v F h
    cases v with
    | term b => exact h
    | ref i =>
      rw [fam_succ_ref] at h ⊢
      cases hnd : σ.node? i with
      | none => rw [hnd] at h; simp at h
      | some nd =>
        rw [hnd] at h
        simp only [Option.some_bind] at h ⊢
        cases hh : fam f σ nd.high with
        | none => rw [hh] at h; simp at h
        | some A =>
          rw [hh] at h
          rw [ih hh]
          simp only [Option.some_bind] at h ⊢
          cases hl : fam f σ nd.low with
          | none => rw [hl] at h; simp at h
          | some B =>
            rw [hl] at h
            rw [ih hl]
            exact h

theorem fam_le {σ : ZState} {v : VRef} {F} :
    ∀ {f f' : Nat}, f ≤ f' → fam f σ v = some F → fam f' σ v = some F := by
  intro f f' hle
  induction hle with
  | refl => exact id
  | step _ ih => exact fun hf => fam_mono (ih hf)

/-- The family of a vertex is unique. -/
theorem Fam_det {σ : ZState} {v : VRef} {F F'} (h : Fam σ v F)
    (h' : Fam σ v F') : F = F' := by
  obtain ⟨f, hf⟩ := h
  obtain ⟨f', hf'⟩ := h'
  rcases Nat.le_total f f' with hle | hle
  · rw [fam_le hle hf] at hf'
    exact Option.some.inj hf'
  · rw [fam_le hle hf'] at hf
    exact (Option.some.inj hf).symm

theorem Fam_term {σ : ZState} {b : Bool} {F} (h : Fam σ (.term b) F) :
    F = if b then {∅} else ∅ := by
  obtain ⟨f, hf⟩ := h
  cases f with
  | zero => simp [fam] at hf
  | succ f =>
    rw [fam_succ_term] at hf
    exact (Option.some.inj hf).symm

theorem Fam_term_intro (σ : ZState) (b : Bool) :
    Fam σ (.term b) (if b then {∅} else ∅) := ⟨1, rfl⟩

theorem Fam_node_intro {σ : ZState} {j : Int} {nd : SetNode} {A B}
    (hnd : σ.node? j = some nd) (hA : Fam σ nd.high A)
    (hB : Fam σ nd.low B) :
    Fam σ (.ref j) (A.image (insert nd.index) ∪ B) := by
  obtain ⟨f₁, h₁⟩ := hA
  obtain ⟨f₂, h₂⟩ := hB
  refine ⟨Nat.succ (max f₁ f₂), ?_⟩
  have h₁' := fam_le (Nat.le_max_left f₁ f₂) h₁
  have h₂' := fam_le (Nat.le_max_right f₁ f₂) h₂
  rw [fam_succ_ref, hnd]
  simp [h₁', h₂']

theorem Fam_ref_decomp {σ : ZState} {i : Int} {nd : SetNode} {F}
    (h : Fam σ (.ref i) F) (hnd : σ.node? i = some nd) :
    ∃ A B, Fam σ nd.high A ∧ Fam σ nd.low B ∧
      F = A.image (insert nd.index) ∪ B := by
  obtain ⟨f, hf⟩ := h
  cases f with
  | zero => simp [fam] at hf
  | succ f =>
    rw [fam_succ_ref, hnd] at hf
    simp only [Option.some_bind] at hf
    cases hh : fam f σ nd.high with
    | none => rw [hh] at hf; simp at hf
    | some A =>
      rw [hh] at hf
      simp only [Option.some_bind] at hf
      cases hl : fam f σ nd.low with
      | none => rw [hl] at hf; simp at hf
      | some B =>
        rw [hl] at hf
        simp only [Option.some_bind, Option.some.injEq] at hf
        exact ⟨A, B, ⟨f, hh⟩, ⟨f, hl⟩, hf.symm⟩

theorem Fam_ref_live {σ : ZState} {i : Int} {F} (h : Fam σ (.ref i) F) :
    ∃ nd, σ.node? i = some nd := by
  obtain ⟨f, hf⟩ := h
  cases f with
  | zero => simp [fam] at hf
  | succ f =>
    cases hnd : σ.node? i with
    | none => rw [fam_succ_ref, hnd] at hf; simp at hf
    | some nd => exact ⟨nd, rfl⟩

theorem GrowsE_refl (σ : ZState) : GrowsE σ σ :=
  fun _ nd h => ⟨nd, h, rfl, rfl, rfl, rfl⟩

theorem GrowsE_trans {σ₁ σ₂ σ₃ : ZState} (g₁ : GrowsE σ₁ σ₂)
    (g₂ : GrowsE σ₂ σ₃) : GrowsE σ₁ σ₃ := by
  intro i nd h
  obtain ⟨nd', h', e₁, e₂, e₃, e₄⟩ := g₁ i nd h
  obtain ⟨nd'', h'', f₁, f₂, f₃, f₄⟩ := g₂ i nd' h'
  exact ⟨nd'', h'', f₁.trans e₁, f₂.trans e₂, f₃.trans e₃, f₄.trans e₄⟩

theorem GrowsE_of_nodes_eq {σ σ' : ZState} (h : σ'.nodes = σ.nodes) :
    GrowsE σ σ' := by
  intro i nd hnd
  refine ⟨nd, ?_, rfl, rfl, rfl, rfl⟩
  show lookupA σ'.nodes i = some nd
  rw [h]
  exact hnd

theorem Grows.growsE {σ σ' : ZState} (g : Grows σ σ') : GrowsE σ σ' := by
  intro i nd h
  obtain ⟨nd', h', e₁, e₂, e₃, e₄, _⟩ := g i nd h
  exact ⟨nd', h', e₁, e₂, e₃, e₄⟩

theorem GrowsE_setMinimal (σ : ZState) (a : Int) (b : Bool) :
    GrowsE σ (σ.setMinimal a b) := by
  intro i nd h
  rw [node?_setMinimal, h]
  by_cases hia : i = a
  · exact ⟨{ nd with minimal := b }, by simp [hia], rfl, rfl, rfl, rfl⟩
  · exact ⟨nd, by simp [hia], rfl, rfl, rfl, rfl⟩

/-- Family computations only read preserved node fields. -/
theorem fam_growsE : ∀ {f : Nat} {σ σ' : ZState} {v : VRef} {F},
    GrowsE σ σ' → fam f σ v = some F → fam f σ' v = some F := by
  intro f
  induction f with
  | zero => intro σ σ' v F _ h; simp [fam] at h
  | succ f ih =>
    intro σ σ' v F g h
    cases v with
    | term b => exact h
    | ref i =>
      rw [fam_succ_ref] at h ⊢
      cases hnd : σ.node? i with
      | none => rw [hnd] at h; simp at h
      | some nd =>
        rw [hnd] at h
        simp only [Option.some_bind] at h
        obtain ⟨nd', hnd', e₁, e₂, e₃, e₄⟩ := g i nd hnd
        rw [hnd']
        simp only [Option.some_bind]
        cases hh : fam f σ nd.high with
        | none => rw [hh] at h; simp at h
        | some A =>
          rw [hh] at h
          simp only [Option.some_bind] at h
          cases hl : fam f σ nd.low with
          | none => rw [hl] at h; simp at h
          | some B =>
            rw [hl] at h
            simp only [Option.some_bind] at h
            rw [e₃, e₄, ih g hh, ih g hl]
            simp only [Option.some_bind, e₁]
            exact h

theorem Fam_growsE {σ σ' : ZState} {v : VRef} {F} (g : GrowsE σ σ')
    (h : Fam σ v F) : Fam σ' v F := by
  obtain ⟨f, hf⟩ := h
  exact ⟨f, fam_growsE g hf⟩

theorem Below_growsE {σ σ' : ZState} {p : Int × Int} {v : VRef}
    (g : GrowsE σ σ') (h : Below σ p v) : Below σ' p v := by
  rcases h with ht | ⟨j, nd, rfl, hnd, hp⟩
  · exact Or.inl ht
  · obtain ⟨nd', hnd', e₁, e₂, _, _⟩ := g j nd hnd
    refine Or.inr ⟨j, nd', rfl, hnd', ?_⟩
    rw [e₂, e₁]
    exact hp

theorem Canon_mono {σ σ' : ZState} {v : VRef} (g : GrowsE σ σ')
    (h : Canon σ v) : Canon σ' v := by
  induction h with
  | term b => exact .term b
  | node i nd F hnd hne ch cl bh bl hF hA ihh ihl =>
    obtain ⟨nd', hnd', e₁, e₂, e₃, e₄⟩ := g i nd hnd
    refine .node i nd' F hnd' ?_ ?_ ?_ ?_ ?_ (Fam_growsE g hF) hA
    · rw [e₃]; exact hne
    · rw [e₃]; exact ihh
    · rw [e₄]; exact ihl
    · rw [e₃, e₂, e₁]; exact Below_growsE g bh
    · rw [e₄, e₂, e₁]; exact Below_growsE g bl

theorem Antichain_subset {A B : Finset (Finset Int)} (h : A ⊆ B)
    (hB : Antichain B) : Antichain A :=
  fun s hs t ht hst => hB s (h hs) t (h ht) hst

theorem Antichain_filt {H : Finset (Finset Int)} (hH : Antichain H)
    (L : Finset (Finset Int)) : Antichain (filt H L) :=
  Antichain_subset (Finset.filter_subset _ _) hH

theorem Canon.validE {σ : ZState} {v : VRef} (h : Canon σ v) :
    ValidRef σ v := by
  cases h with
  | term b => exact Or.inl rfl
  | node i nd F hnd _ _ _ _ _ _ _ => exact Or.inr ⟨nd, hnd⟩

theorem Canon_antichain {σ : ZState} {v : VRef} {F} (hc : Canon σ v)
    (hF : Fam σ v F) : Antichain F := by
  cases hc with
  | term b =>
    rw [Fam_term hF]
    cases b <;> decide
  | node i nd F₀ hnd hne ch cl bh bl hF₀ hA =>
    rw [Fam_det hF hF₀]
    exact hA

theorem filt_low_empty (H : Finset (Finset Int)) : filt H ∅ = H :=
  Finset.filter_true_of_mem (fun s _ => by simp)

theorem filt_low_base (H : Finset (Finset Int)) : filt H {∅} = ∅ :=
  Finset.filter_false_of_mem (fun s _ hp =>
    hp ∅ (Finset.mem_singleton_self ∅) (Finset.empty_subset s))

theorem filt_high_empty (L : Finset (Finset Int)) : filt ∅ L = ∅ :=
  Finset.filter_empty _

theorem filt_high_base {L : Finset (Finset Int)} (h : ∅ ∉ L) :
    filt {∅} L = {∅} := by
  refine Finset.filter_true_of_mem ?_
  intro s hs t ht hts
  rw [Finset.mem_singleton] at hs
  subst hs
  rw [Finset.subset_empty] at hts
  subst hts
  exact h ht

theorem subset_insert_iff_nomem {x : Int} {t s : Finset Int} (hx : x ∉ t) :
    t ⊆ insert x s ↔ t ⊆ s := by
  constructor
  · intro h y hy
    rcases Finset.mem_insert.mp (h hy) with rfl | h'
    · exact absurd hy hx
    · exact h'
  · exact fun h => h.trans (Finset.subset_insert x s)

theorem insert_subset_insert_iff_nomem {x : Int} {t s : Finset Int}
    (hx : x ∉ t) : insert x t ⊆ insert x s ↔ t ⊆ s := by
  constructor
  · intro h
    exact (subset_insert_iff_nomem hx).mp ((Finset.subset_insert x t).trans h)
  · exact fun h => Finset.insert_subset_insert x h

theorem image_filter_insert (x : Int) (A : Finset (Finset Int))
    (p : Finset Int → Prop) [DecidablePred p] :
    (A.image (insert x)).filter p =
      (A.filter fun a => p (insert x a)).image (insert x) := by
  ext s
  simp only [Finset.mem_filter, Finset.mem_image]
  constructor
  · rintro ⟨⟨a, ha, rfl⟩, hp⟩
    exact ⟨a, ⟨ha, hp⟩, rfl⟩
  · rintro ⟨a, ⟨ha, hp⟩, rfl⟩
    exact ⟨⟨a, ha, rfl⟩, hp⟩

/-- Sets from a family avoiding `y` are never supersets of sets
containing `y`: the low operand's top variable can be dropped. -/
theorem filt_drop {y : Int} {H Lh Ll : Finset (Finset Int)}
    (hy : ∀ s ∈ H, y ∉ s) :
    filt H (Lh.image (insert y) ∪ Ll) = filt H Ll := by
  unfold filt
  refine Finset.filter_congr ?_
  intro s hs
  constructor
  · intro hp t ht hts
    exact hp t (Finset.mem_union_right _ ht) hts
  · intro hp t ht hts
    rcases Finset.mem_union.mp ht with ht' | ht'
    · obtain ⟨b, _, rfl⟩ := Finset.mem_image.mp ht'
      exact hy s hs (hts (Finset.mem_insert_self y b))
    · exact hp t ht' hts

/-- Setwise difference of a node against a family strictly below its
variable distributes over the node decomposition. -/
theorem filt_node_low {x : Int} {Hh Hl L : Finset (Finset Int)}
    (hxL : ∀ t ∈ L, x ∉ t) :
    filt (Hh.image (insert x) ∪ Hl) L =
      (filt Hh L).image (insert x) ∪ filt Hl L := by
  have hA : filt (Hh.image (insert x)) L = (filt Hh L).image (insert x) := by
    unfold filt
    rw [image_filter_insert]
    congr 1
    refine Finset.filter_congr ?_
    intro a _
    constructor
    · intro hp t ht hts
      exact hp t ht ((subset_insert_iff_nomem (hxL t ht)).mpr hts)
    · intro hp t ht hts
      exact hp t ht ((subset_insert_iff_nomem (hxL t ht)).mp hts)
  calc filt (Hh.image (insert x) ∪ Hl) L
      = filt (Hh.image (insert x)) L ∪ filt Hl L :=
        Finset.filter_union _ _ _
    _ = (filt Hh L).image (insert x) ∪ filt Hl L := by rw [hA]

/-- Setwise difference of two nodes on the same variable decomposes into
the three recursive differences of `Subsume`. -/
theorem filt_node_node {x : Int} {Hh Hl Lh Ll : Finset (Finset Int)}
    (hxLh : ∀ t ∈ Lh, x ∉ t) (hxLl : ∀ t ∈ Ll, x ∉ t)
    (hxHl : ∀ u ∈ Hl, x ∉ u) :
    filt (Hh.image (insert x) ∪ Hl) (Lh.image (insert x) ∪ Ll) =
      (filt (filt Hh Lh) Ll).image (insert x) ∪ filt Hl Ll := by
  have hB : filt Hl (Lh.image (insert x) ∪ Ll) = filt Hl Ll :=
    filt_drop hxHl
  have hA : filt (Hh.image (insert x)) (Lh.image (insert x) ∪ Ll) =
      (filt (filt Hh Lh) Ll).image (insert x) := by
    unfold filt
    rw [image_filter_insert, Finset.filter_filter]
    congr 1
    refine Finset.filter_congr ?_
    intro a _
    constructor
    · intro hp
      constructor
      · intro t ht hts
        exact hp (insert x t) (Finset.mem_union_left _
            (Finset.mem_image_of_mem _ ht))
          ((insert_subset_insert_iff_nomem (hxLh t ht)).mpr hts)
      · intro t ht hts
        exact hp t (Finset.mem_union_right _ ht)
          ((subset_insert_iff_nomem (hxLl t ht)).mpr hts)
    · rintro ⟨hp₁, hp₂⟩ t ht hts
      rcases Finset.mem_union.mp ht with ht' | ht'
      · obtain ⟨b, hb, rfl⟩ := Finset.mem_image.mp ht'
        exact hp₁ b hb ((insert_subset_insert_iff_nomem (hxLh b hb)).mp hts)
      · exact hp₂ t ht' ((subset_insert_iff_nomem (hxLl t ht')).mp hts)
  calc filt (Hh.image (insert x) ∪ Hl) (Lh.image (insert x) ∪ Ll)
      = filt (Hh.image (insert x)) (Lh.image (insert x) ∪ Ll) ∪
        filt Hl (Lh.image (insert x) ∪ Ll) :=
        Finset.filter_union _ _ _
    _ = (filt (filt Hh Lh) Ll).image (insert x) ∪ filt Hl Ll := by
        rw [hA, hB]

/-- Every variable in a family under a position bound comes from a live
node strictly below the bound. -/
theorem fam_vars : ∀ {f : Nat} {σ : ZState} {v : VRef} {F},
    fam f σ v = some F → Canon σ v → ∀ {p : Int × Int}, Below σ p v →
    ∀ {s : Finset Int}, s ∈ F → ∀ {x : Int}, x ∈ s →
    ∃ j nd, σ.node? j = some nd ∧ nd.index = x ∧
      posLt p (nd.order, nd.index) := by
  intro f
  induction f with
  | zero => intro σ v F h; simp [fam] at h
  | succ f ih =>
    intro σ v F hf hc p hb s hs x hx
    cases v with
    | term b =>
      rw [fam_succ_term] at hf
      obtain rfl := Option.some.inj hf
      cases b with
      | false => simp at hs
      | true =>
        simp at hs
        subst hs
        simp at hx
    | ref i =>
      cases hc with
      | node i nd F₀ hnd hne ch cl bh bl hF₀ hA =>
        rw [fam_succ_ref, hnd] at hf
        simp only [Option.some_bind] at hf
        cases hh : fam f σ nd.high with
        | none => rw [hh] at hf; simp at hf
        | some A =>
          rw [hh] at hf
          simp only [Option.some_bind] at hf
          cases hl : fam f σ nd.low with
          | none => rw [hl] at hf; simp at hf
          | some B =>
            rw [hl] at hf
            simp only [Option.some_bind, Option.some.injEq] at hf
            rw [← hf] at hs
            rcases hb with hterm | ⟨j, nd', hji, hnd', hp⟩
            · simp [VRef.isTerm] at hterm
            · have hj : j = i := by
                injection hji with h
                exact h.symm
              rw [hj] at hnd'
              have hnd'' : nd' = nd := by
                rw [hnd] at hnd'
                exact (Option.some.inj hnd').symm
              rw [hnd''] at hp
              rcases Finset.mem_union.mp hs with hs' | hs'
              · obtain ⟨a, ha, rfl⟩ := Finset.mem_image.mp hs'
                rcases Finset.mem_insert.mp hx with rfl | hx'
                · exact ⟨i, nd, hnd, rfl, hp⟩
                · obtain ⟨j₂, nd₂, h₁, h₂, h₃⟩ := ih hh ch bh ha hx'
                  exact ⟨j₂, nd₂, h₁, h₂, posLt_trans hp h₃⟩
              · obtain ⟨j₂, nd₂, h₁, h₂, h₃⟩ := ih hl cl bl hs' hx
                exact ⟨j₂, nd₂, h₁, h₂, posLt_trans hp h₃⟩

/-- The variable of a live node never occurs in a family bounded below
its position (given that the index determines the order). -/
theorem fam_vars_not_mem {f : Nat} {σ : ZState} {v : VRef} {F}
    (hf : fam f σ v = some F) (hc : Canon σ v) (hio : IdxOrd σ)
    {mi : Int} {mnd : SetNode} (hm : σ.node? mi = some mnd)
    (hb : Below σ (mnd.order, mnd.index) v) {s : Finset Int}
    (hs : s ∈ F) : mnd.index ∉ s := by
  intro hx
  obtain ⟨j, nd, hnd, hidx, hp⟩ := fam_vars hf hc hb hs hx
  have hord := hio j nd mi mnd hnd hm hidx
  rw [hord, hidx] at hp
  exact posLt_irrefl _ hp

/-- The family of a canonical node is non-empty. -/
theorem fam_ref_nonempty : ∀ {f : Nat} {σ : ZState} {i : Int} {F},
    Canon σ (.ref i) → fam f σ (.ref i) = some F → F.Nonempty := by
  intro f
  induction f with
  | zero => intro σ i F _ h; simp [fam] at h
  | succ f ih =>
    intro σ i F hc hf
    cases hc with
    | node i nd F₀ hnd hne ch cl bh bl hF₀ hA =>
      rw [fam_succ_ref, hnd] at hf
      simp only [Option.some_bind] at hf
      cases hh : fam f σ nd.high with
      | none => rw [hh] at hf; simp at hf
      | some A =>
        rw [hh] at hf
        simp only [Option.some_bind] at hf
        cases hl : fam f σ nd.low with
        | none => rw [hl] at hf; simp at hf
        | some B =>
          rw [hl] at hf
          simp only [Option.some_bind, Option.some.injEq] at hf
          have hAne : A.Nonempty := by
            cases hhv : nd.high with
            | term b =>
              cases b with
              | false => exact absurd hhv hne
              | true =>
                rw [hhv] at hh
                cases f with
                | zero => simp [fam] at hh
                | succ f =>
                  rw [fam_succ_term] at hh
                  obtain rfl := Option.some.inj hh
                  exact ⟨∅, by simp⟩
            | ref j =>
              rw [hhv] at hh ch
              exact ih ch hh
          obtain ⟨a, ha⟩ := hAne
          rw [← hf]
          exact ⟨insert nd.index a, Finset.mem_union_left _
            (Finset.mem_image_of_mem _ ha)⟩

/-- A canonical node's family never contains the empty set: minimality
would be violated by any other member. -/
theorem canon_no_empty {σ : ZState} {i : Int} {F} (hc : Canon σ (.ref i))
    (hF : Fam σ (.ref i) F) : ∅ ∉ F := by
  intro hmem
  have hc' := hc
  cases hc' with
  | node i nd F₀ hnd hne ch cl bh bl hF₀ hA =>
    obtain ⟨A, B, hA₁, hB₁, hdec⟩ := Fam_ref_decomp hF hnd
    have hAne : A.Nonempty := by
      cases hhv : nd.high with
      | term b =>
        cases b with
        | false => exact absurd hhv hne
        | true =>
          rw [hhv] at hA₁
          have := Fam_term hA₁
          simp at this
          rw [this]
          exact ⟨∅, by simp⟩
      | ref j =>
        obtain ⟨f, hf⟩ := hA₁
        rw [hhv] at hf ch
        exact fam_ref_nonempty ch hf
    obtain ⟨a, ha⟩ := hAne
    have hmem' : insert nd.index a ∈ F := by
      rw [hdec]
      exact Finset.mem_union_left _ (Finset.mem_image_of_mem _ ha)
    have heq : (∅ : Finset Int) = insert nd.index a :=
      Canon_antichain hc hF ∅ hmem _ hmem' (Finset.empty_subset _)
    exact (Finset.insert_ne_empty _ _) heq.symm

theorem WfMin_setMinimal {σ : ZState} (wf : WfMin σ) (a : Int) (b : Bool) :
    WfMin (σ.setMinimal a b) := by
  obtain ⟨h2, hids, hch, huq⟩ := wf
  have g := GrowsE_setMinimal σ a b
  have hnodes : ∀ w, ValidRef σ w → ValidRef (σ.setMinimal a b) w := by
    intro w hw
    rcases hw with ht | ⟨nd₁, hnd₁⟩
    · exact Or.inl ht
    · obtain ⟨nd₂, hnd₂, _, _, _, _⟩ := g w.vid nd₁ hnd₁
      exact Or.inr ⟨nd₂, hnd₂⟩
  refine ⟨h2, ?_, ?_, ?_⟩
  · intro i nd hnd
    rw [node?_setMinimal] at hnd
    cases ho : σ.node? i with
    | none => rw [ho] at hnd; simp at hnd
    | some nd₀ => exact hids i nd₀ ho
  · intro i nd hnd
    rw [node?_setMinimal] at hnd
    cases ho : σ.node? i with
    | none => rw [ho] at hnd; simp at hnd
    | some nd₀ =>
      rw [ho] at hnd
      simp only [Option.map_some', Option.some.injEq] at hnd
      have hv := hch i nd₀ ho
      by_cases hia : i = a
      · rw [if_pos hia] at hnd
        rw [← hnd]
        exact ⟨hnodes _ hv.1, hnodes _ hv.2⟩
      · rw [if_neg hia] at hnd
        rw [← hnd]
        exact ⟨hnodes _ hv.1, hnodes _ hv.2⟩
  · intro k j hkj
    have hkj' : lookupA σ.uniq k = some j := hkj
    obtain ⟨nd₀, hnd₀, hi, hhv, hlv⟩ := huq k j hkj'
    obtain ⟨nd₂, hnd₂, e₁, _, e₃, e₄⟩ := g j nd₀ hnd₀
    exact ⟨nd₂, hnd₂, by rw [e₁, hi], by rw [e₃, hhv], by rw [e₄, hlv]⟩

theorem IdxOrd_setMinimal {σ : ZState} (hio : IdxOrd σ) (a : Int)
    (b : Bool) : IdxOrd (σ.setMinimal a b) := by
  intro i nd j nd' hnd hnd' hidx
  rw [node?_setMinimal] at hnd hnd'
  cases ho : σ.node? i with
  | none => rw [ho] at hnd; simp at hnd
  | some nd₀ =>
    cases ho' : σ.node? j with
    | none => rw [ho'] at hnd'; simp at hnd'
    | some nd₁ =>
      rw [ho] at hnd
      rw [ho'] at hnd'
      simp only [Option.map_some', Option.some.injEq] at hnd hnd'
      have e₀ : nd.index = nd₀.index ∧ nd.order = nd₀.order := by
        by_cases hia : i = a
        · rw [if_pos hia] at hnd; rw [← hnd]; exact ⟨rfl, rfl⟩
        · rw [if_neg hia] at hnd; rw [← hnd]; exact ⟨rfl, rfl⟩
      have e₁ : nd'.index = nd₁.index ∧ nd'.order = nd₁.order := by
        by_cases hja : j = a
        · rw [if_pos hja] at hnd'; rw [← hnd']; exact ⟨rfl, rfl⟩
        · rw [if_neg hja] at hnd'; rw [← hnd']; exact ⟨rfl, rfl⟩
      rw [e₀.2, e₁.2]
      exact hio i nd₀ j nd₁ ho ho' (by rw [← e₀.1, ← e₁.1]; exact hidx)

/-- `FetchUniqueTable` for the rebuilt node of `Subsume`: the store stays
well-formed, the index still determines the order, the store only grows,
and the result is a live node carrying the requested fields. -/
theorem fetch_WfE {σ : ZState} {high low : VRef} {md : Bool}
    (wf : WfMin σ) (hio : IdxOrd σ) {i₀ : Int} {nd₀ : SetNode}
    (h₀ : σ.node? i₀ = some nd₀) (hh : ValidRef σ high)
    (hl : ValidRef σ low) :
    WfMin (fetchUniqueTable σ nd₀.index high low nd₀.order md).2 ∧
    IdxOrd (fetchUniqueTable σ nd₀.index high low nd₀.order md).2 ∧
    GrowsE σ (fetchUniqueTable σ nd₀.index high low nd₀.order md).2 ∧
    (∃ j nd,
      (fetchUniqueTable σ nd₀.index high low nd₀.order md).1 = .ref j ∧
      (fetchUniqueTable σ nd₀.index high low nd₀.order md).2.node? j =
        some nd ∧
      nd.index = nd₀.index ∧ nd.order = nd₀.order ∧ nd.high = high ∧
      nd.low = low) := by
  obtain ⟨h2, hids, hch, huq⟩ := wf
  have g : Grows σ (fetchUniqueTable σ nd₀.index high low nd₀.order md).2 :=
    Grows_fetch σ nd₀.index high low nd₀.order md hids
  cases hlk : lookupA σ.uniq (nd₀.index, high.vid, low.vid) with
  | some j =>
    rw [fetch_hit hlk]
    obtain ⟨nd, hnd, hi, hhv, hlv⟩ := huq _ j hlk
    have hhe : nd.high = high := vid_determines hids (hch _ _ hnd).1 hh hhv
    have hle : nd.low = low := vid_determines hids (hch _ _ hnd).2 hl hlv
    exact ⟨⟨h2, hids, hch, huq⟩, hio, GrowsE_refl σ, j, nd, rfl, hnd, hi,
      hio j nd i₀ nd₀ hnd h₀ hi, hhe, hle⟩
  | none =>
    rw [fetch_miss hlk] at g ⊢
    show WfMin (fetchFresh σ nd₀.index high low nd₀.order md) ∧
      IdxOrd (fetchFresh σ nd₀.index high low nd₀.order md) ∧
      GrowsE σ (fetchFresh σ nd₀.index high low nd₀.order md) ∧
      (∃ j nd, (VRef.ref σ.nextId : VRef) = .ref j ∧
        (fetchFresh σ nd₀.index high low nd₀.order md).node? j = some nd ∧
        nd.index = nd₀.index ∧ nd.order = nd₀.order ∧ nd.high = high ∧
        nd.low = low)
    have g' : GrowsE σ (fetchFresh σ nd₀.index high low nd₀.order md) :=
      g.growsE
    have hnew := fetchFresh_node_self σ nd₀.index high low nd₀.order md
    have hnext := fetchFresh_nextId σ nd₀.index high low nd₀.order md
    have hvof : ∀ i nd, (fetchFresh σ nd₀.index high low nd₀.order
        md).node? i = some nd → i = σ.nextId ∨ σ.node? i = some nd := by
      intro i nd hnd
      by_cases hne : i = σ.nextId
      · exact Or.inl hne
      · rw [fetchFresh_node_ne σ nd₀.index high low nd₀.order md hne]
          at hnd
        exact Or.inr hnd
    refine ⟨⟨by omega, ?_, ?_, ?_⟩, ?_, g', σ.nextId, _, rfl, hnew, rfl,
      rfl, rfl, rfl⟩
    · intro i nd hnd
      rcases hvof i nd hnd with rfl | ho
      · omega
      · have := hids i nd ho
        omega
    · intro i nd hnd
      by_cases hne : i = σ.nextId
      · subst hne
        rw [hnew] at hnd
        obtain rfl := Option.some.inj hnd
        exact ⟨ValidRef_mono g hh, ValidRef_mono g hl⟩
      · rw [fetchFresh_node_ne σ nd₀.index high low nd₀.order md hne]
          at hnd
        have := hch i nd hnd
        exact ⟨ValidRef_mono g this.1, ValidRef_mono g this.2⟩
    · intro k j hkj
      have hkj' : lookupA (((nd₀.index, high.vid, low.vid), σ.nextId) ::
          σ.uniq) k = some j := hkj
      rw [lookupA] at hkj'
      by_cases hk : ((nd₀.index, high.vid, low.vid) : Int × Int × Int) = k
      · rw [if_pos hk] at hkj'
        obtain rfl := Option.some.inj hkj'
        refine ⟨_, hnew, ?_, ?_, ?_⟩ <;> rw [← hk]
      · rw [if_neg hk] at hkj'
        obtain ⟨nd, hnd, hi, hhv, hlv⟩ := huq k j hkj'
        have hjne : j ≠ σ.nextId := by
          have := hids _ _ hnd
          omega
        refine ⟨nd, ?_, hi, hhv, hlv⟩
        rw [fetchFresh_node_ne σ nd₀.index high low nd₀.order md hjne]
        exact hnd
    · intro i nd j nd' hnd hnd' hidx
      rcases hvof i nd hnd with rfl | ho
      · rw [hnew] at hnd
        obtain rfl := Option.some.inj hnd
        rcases hvof j nd' hnd' with rfl | ho'
        · rw [hnew] at hnd'
          obtain rfl := Option.some.inj hnd'
          rfl
        · exact (hio i₀ nd₀ j nd' h₀ ho' hidx)
      · rcases hvof j nd' hnd' with rfl | ho'
        · rw [hnew] at hnd'
          obtain rfl := Option.some.inj hnd'
          exact hio i nd i₀ nd₀ ho h₀ hidx
        · exact hio i nd j nd' ho ho' hidx

theorem SubCoh_growsE {σ σ' : ZState} (sc : SubCoh σ) (g : GrowsE σ σ')
    (ht : σ'.subTab = σ.subTab) : SubCoh σ' := by
  intro p hp
  rw [ht] at hp
  obtain ⟨H, L, h₁, h₂, h₃, h₄, h₅⟩ := sc p hp
  refine ⟨H, L, Fam_growsE g h₁, Fam_growsE g h₂, Fam_growsE g h₃,
    Canon_mono g h₄, ?_⟩
  intro q hb
  obtain ⟨nd, hnd⟩ := Fam_ref_live h₁
  rcases hb with ht' | ⟨j, nd', hji, hnd', hp'⟩
  · simp [VRef.isTerm] at ht'
  · have hj : j = p.1.1 := by injection hji with h; exact h.symm
    rw [hj] at hnd'
    obtain ⟨nd₂, hnd₂, e₁, e₂, _, _⟩ := g p.1.1 nd hnd
    have he : nd' = nd₂ := by
      rw [hnd₂] at hnd'
      exact (Option.some.inj hnd').symm
    rw [he, e₂, e₁] at hp'
    exact Below_growsE g (h₅ q (Or.inr ⟨p.1.1, nd, rfl, hnd, hp'⟩))

theorem SubCoh_cons {σ : ZState} (sc : SubCoh σ) {hi li : Int} {r : VRef}
    {H L} (h₁ : Fam σ (.ref hi) H) (h₂ : Fam σ (.ref li) L)
    (h₃ : Fam σ r (filt H L)) (h₄ : Canon σ r)
    (h₅ : ∀ q, Below σ q (.ref hi) → Below σ q r) :
    SubCoh { σ with subTab := ((hi, li), r) :: σ.subTab } := by
  have g : GrowsE σ { σ with subTab := ((hi, li), r) :: σ.subTab } :=
    GrowsE_of_nodes_eq rfl
  have g' : GrowsE { σ with subTab := ((hi, li), r) :: σ.subTab } σ :=
    GrowsE_of_nodes_eq rfl
  intro p hp
  rcases List.mem_cons.mp hp with rfl | hp'
  · refine ⟨H, L, Fam_growsE g h₁, Fam_growsE g h₂, Fam_growsE g h₃,
      Canon_mono g h₄, ?_⟩
    intro q hb
    exact Below_growsE g (h₅ q (Below_growsE g' hb))
  · obtain ⟨H', L', k₁, k₂, k₃, k₄, k₅⟩ := sc p hp'
    refine ⟨H', L', Fam_growsE g k₁, Fam_growsE g k₂, Fam_growsE g k₃,
      Canon_mono g k₄, ?_⟩
    intro q hb
    exact Below_growsE g (k₅ q (Below_growsE g' hb))

theorem Below_posLt_trans {σ : ZState} {q p : Int × Int} {v : VRef}
    (hqp : posLt q p) (hb : Below σ p v) : Below σ q v := by
  rcases hb with ht | ⟨j, nd, hji, hnd, hp⟩
  · exact Or.inl ht
  · exact Or.inr ⟨j, nd, hji, hnd, posLt_trans hqp hp⟩

theorem Below_ref_posLt {σ : ZState} {q : Int × Int} {i : Int}
    {nd : SetNode} (hnd : σ.node? i = some nd)
    (hb : Below σ q (.ref i)) : posLt q (nd.order, nd.index) := by
  rcases hb with ht | ⟨j, nd', hji, hnd', hp⟩
  · simp [VRef.isTerm] at ht
  · have hj : j = i := by injection hji with h; exact h.symm
    rw [hj] at hnd'
    have he : nd' = nd := by
      rw [hnd] at hnd'
      exact (Option.some.inj hnd').symm
    rw [he] at hp
    exact hp

theorem Below_back {σ σ' : ZState} (g : GrowsE σ σ') {i : Int}
    {nd : SetNode} (hnd : σ.node? i = some nd) {q : Int × Int}
    (hb : Below σ' q (.ref i)) : Below σ q (.ref i) := by
  obtain ⟨nd₂, hnd₂, e₁, e₂, _, _⟩ := g i nd hnd
  have hp := Below_ref_posLt hnd₂ hb
  rw [e₂, e₁] at hp
  exact Or.inr ⟨i, nd, rfl, hnd, hp⟩

theorem fetch_subTab (σ : ZState) (i : Int) (h l : VRef) (o : Int)
    (m : Bool) :
    (fetchUniqueTable σ i h l o m).2.subTab = σ.subTab := by
  unfold fetchUniqueTable
  cases lookupA σ.uniq (i, h.vid, l.vid) <;> rfl

/-- Family exactness of `Subsume` on canonical operands in a coherent
state: the result denotes exactly the setwise difference `H ∖⊇ L`, the
state invariant is preserved, the store grows, the result is canonical
and sits no higher than the high operand. -/
theorem subsume_exact :
    ∀ (f : Nat) {h l : VRef} {σ : ZState} {r : VRef} {σ' : ZState},
    subsume f h l σ = some (r, σ') → GoodE σ → Canon σ h → Canon σ l →
    ∀ {H L : Finset (Finset Int)}, Fam σ h H → Fam σ l L →
    GoodE σ' ∧ GrowsE σ σ' ∧ Canon σ' r ∧ Fam σ' r (filt H L) ∧
    (∀ q, Below σ q h → Below σ' q r) := by
  intro f
  induction f with
  | zero => intro h l σ r σ' Hs; simp [subsume] at Hs
  | succ f ih =>
    intro h l σ r σ' Hs inv ch cl H L hH hL
    rcases subsume_inv Hs with
      ⟨b, rfl, rfl, rfl⟩ | ⟨li, v, rfl, rfl, rfl, rfl⟩ |
      ⟨li, hi, r₀, rfl, rfl, hm, rfl, rfl⟩ |
      ⟨li, hi, hn, ln, rfl, rfl, hm, hhn, hln, hrest⟩
    · cases b
      · have hLe : L = ∅ := by simpa using Fam_term hL
        subst hLe
        rw [filt_low_empty]
        exact ⟨inv, GrowsE_refl _, ch, hH, fun q hb => hb⟩
      · have hLe : L = {∅} := by simpa using Fam_term hL
        subst hLe
        rw [filt_low_base]
        exact ⟨inv, GrowsE_refl _, .term false, ⟨1, rfl⟩,
          fun q _ => Or.inl rfl⟩
    · cases v
      · have hHe : H = ∅ := by simpa using Fam_term hH
        subst hHe
        rw [filt_high_empty]
        exact ⟨inv, GrowsE_refl _, .term false, ⟨1, rfl⟩,
          fun q _ => Or.inl rfl⟩
      · have hHe : H = {∅} := by simpa using Fam_term hH
        subst hHe
        rw [filt_high_base (canon_no_empty cl hL)]
        exact ⟨inv, GrowsE_refl _, .term true, ⟨1, rfl⟩,
          fun q _ => Or.inl rfl⟩
    · obtain ⟨H₀, L₀, k₁, k₂, k₃, k₄, k₅⟩ := inv.2.2 _ (lookupA_mem hm)
      have e₁ : H₀ = H := Fam_det k₁ hH
      have e₂ : L₀ = L := Fam_det k₂ hL
      rw [e₁, e₂] at k₃
      exact ⟨inv, GrowsE_refl _, k₄, k₃, k₅⟩
    · obtain ⟨wf, hio, sc⟩ := inv
      have hHfacts : hn.high ≠ .term false ∧ Canon σ hn.high ∧
          Canon σ hn.low ∧ Below σ (hn.order, hn.index) hn.high ∧
          Below σ (hn.order, hn.index) hn.low ∧ Antichain H := by
        cases ch with
        | node i nd F₀ hnd hne chh chl bhh bhl hF₀ hA₀ =>
          have he : nd = hn := by
            rw [hhn] at hnd
            exact (Option.some.inj hnd).symm
          rw [he] at hne chh chl bhh bhl
          have heF : F₀ = H := Fam_det hF₀ hH
          rw [heF] at hA₀
          exact ⟨hne, chh, chl, bhh, bhl, hA₀⟩
      obtain ⟨hne, chh, chl, bhh, bhl, hAH⟩ := hHfacts
      have hLfacts : Canon σ ln.high ∧ Canon σ ln.low ∧
          Below σ (ln.order, ln.index) ln.high ∧
          Below σ (ln.order, ln.index) ln.low := by
        cases cl with
        | node i nd F₀ hnd hne' clh cll blh bll hF₀ hA₀ =>
          have he : nd = ln := by
            rw [hln] at hnd
            exact (Option.some.inj hnd).symm
          rw [he] at clh cll blh bll
          exact ⟨clh, cll, blh, bll⟩
      obtain ⟨clh, cll, blh, bll⟩ := hLfacts
      obtain ⟨Hh, Hl, hHh, hHl, hHdec⟩ := Fam_ref_decomp hH hhn
      obtain ⟨Lh, Ll, hLh, hLl, hLdec⟩ := Fam_ref_decomp hL hln
      rcases hrest with ⟨hord, r₀, σ₁, hrec, rfl, rfl⟩ |
        ⟨hord, subhigh, sublow, σ₂, hbranch, hout⟩
      · -- drop the low operand's top variable
        have hpos : posLt (ln.order, ln.index) (hn.order, hn.index) := by
          unfold posLt
          omega
        have hyH : ∀ s ∈ H, ln.index ∉ s := by
          intro s hs
          obtain ⟨fH, hfH⟩ := hH
          exact fam_vars_not_mem hfH ch hio hln
            (Or.inr ⟨hi, hn, rfl, hhn, hpos⟩) hs
        have hfilt : filt H L = filt H Ll := by
          rw [hLdec]
          exact filt_drop hyH
        obtain ⟨inv₁, g₁, c₁, fam₁, tr₁⟩ :=
          ih hrec ⟨wf, hio, sc⟩ ch cll hH hLl
        have gc : GrowsE σ₁
            { σ₁ with subTab := ((hi, li), r) :: σ₁.subTab } :=
          GrowsE_of_nodes_eq rfl
        refine ⟨⟨inv₁.1, inv₁.2.1, ?_⟩, GrowsE_trans g₁ gc,
          Canon_mono gc c₁, ?_, ?_⟩
        · refine SubCoh_cons inv₁.2.2 (Fam_growsE g₁ hH)
            (Fam_growsE g₁ hL) ?_ c₁ ?_
          · rw [hfilt]
            exact fam₁
          · intro q hb
            exact tr₁ q (Below_back g₁ hhn hb)
        · rw [hfilt]
          exact Fam_growsE gc fam₁
        · intro q hb
          exact Below_growsE gc (tr₁ q hb)
      · -- recurse on both children of the high operand
        have hmain : GoodE σ₂ ∧ GrowsE σ σ₂ ∧ Canon σ₂ subhigh ∧
            Canon σ₂ sublow ∧
            (∃ A B, Fam σ₂ subhigh A ∧ Fam σ₂ sublow B ∧
              filt H L = A.image (insert hn.index) ∪ B) ∧
            Below σ₂ (hn.order, hn.index) subhigh ∧
            Below σ₂ (hn.order, hn.index) sublow := by
          rcases hbranch with ⟨hsame, s₁, σa, σb, h₁, h₂, h₃⟩ |
            ⟨hsame, σa, h₁, h₂⟩
          · have hxLh : ∀ t ∈ Lh, hn.index ∉ t := by
              intro t ht
              rw [hsame.2]
              obtain ⟨fl, hfl⟩ := hLh
              exact fam_vars_not_mem hfl clh hio hln blh ht
            have hxLl : ∀ t ∈ Ll, hn.index ∉ t := by
              intro t ht
              rw [hsame.2]
              obtain ⟨fl, hfl⟩ := hLl
              exact fam_vars_not_mem hfl cll hio hln bll ht
            have hxHl : ∀ u ∈ Hl, hn.index ∉ u := by
              intro u hu
              obtain ⟨fl, hfl⟩ := hHl
              exact fam_vars_not_mem hfl chl hio hhn bhl hu
            obtain ⟨inva, ga, ca, fama, tra⟩ :=
              ih h₁ ⟨wf, hio, sc⟩ chh clh hHh hLh
            obtain ⟨invb, gb, cb, famb, trb⟩ :=
              ih h₂ inva ca (Canon_mono ga cll) fama (Fam_growsE ga hLl)
            obtain ⟨inv₂, gc2, cc, famc, trc⟩ :=
              ih h₃ invb (Canon_mono (GrowsE_trans ga gb) chl)
                (Canon_mono (GrowsE_trans ga gb) cll)
                (Fam_growsE (GrowsE_trans ga gb) hHl)
                (Fam_growsE (GrowsE_trans ga gb) hLl)
            refine ⟨inv₂, GrowsE_trans ga (GrowsE_trans gb gc2),
              Canon_mono gc2 cb, cc,
              ⟨filt (filt Hh Lh) Ll, filt Hl Ll, Fam_growsE gc2 famb,
                famc, ?_⟩, ?_, ?_⟩
            · rw [hHdec, hLdec, ← hsame.2]
              exact filt_node_node hxLh hxLl hxHl
            · exact Below_growsE gc2 (trb _ (tra _ bhh))
            · exact trc _ (Below_growsE (GrowsE_trans ga gb) bhl)
          · have hpos2 : posLt (hn.order, hn.index) (ln.order, ln.index) := by
              unfold posLt
              omega
            have hxL : ∀ t ∈ L, hn.index ∉ t := by
              intro t ht
              obtain ⟨fl, hfl⟩ := hL
              exact fam_vars_not_mem hfl cl hio hhn
                (Or.inr ⟨li, ln, rfl, hln, hpos2⟩) ht
            obtain ⟨inva, ga, ca, fama, tra⟩ :=
              ih h₁ ⟨wf, hio, sc⟩ chh cl hHh hL
            obtain ⟨inv₂, gb, cb, famb, trb⟩ :=
              ih h₂ inva (Canon_mono ga chl) (Canon_mono ga cl)
                (Fam_growsE ga hHl) (Fam_growsE ga hL)
            refine ⟨inv₂, GrowsE_trans ga gb, Canon_mono gb ca, cb,
              ⟨filt Hh L, filt Hl L, Fam_growsE gb fama, famb, ?_⟩,
              ?_, ?_⟩
            · rw [hHdec]
              exact filt_node_low hxL
            · exact Below_growsE gb (tra _ bhh)
            · exact trb _ (Below_growsE ga bhl)
        obtain ⟨inv₂, g₂, csh, csl, ⟨A, B, fA, fB, hcomb⟩, bsh, bsl⟩ := hmain
        rcases hout with ⟨hterm, rfl, rfl⟩ | ⟨hterm, hn₂, hn₂eq, rfl, rfl⟩
        · -- subhigh is EMPTY: the result is the low difference
          have hAe : A = ∅ := by
            rw [hterm] at fA
            simpa using Fam_term fA
          rw [hAe] at hcomb
          simp only [Finset.image_empty, Finset.empty_union] at hcomb
          have gc : GrowsE σ₂
              { σ₂ with subTab := ((hi, li), r) :: σ₂.subTab } :=
            GrowsE_of_nodes_eq rfl
          refine ⟨⟨inv₂.1, inv₂.2.1, ?_⟩, GrowsE_trans g₂ gc,
            Canon_mono gc csl, ?_, ?_⟩
          · refine SubCoh_cons inv₂.2.2 (Fam_growsE g₂ hH)
              (Fam_growsE g₂ hL) ?_ csl ?_
            · rw [hcomb]
              exact fB
            · intro q hb
              have hq := Below_ref_posLt hhn (Below_back g₂ hhn hb)
              exact Below_posLt_trans hq bsl
          · rw [hcomb]
            exact Fam_growsE gc fB
          · intro q hb
            have hq := Below_ref_posLt hhn hb
            exact Below_growsE gc (Below_posLt_trans hq bsl)
        · -- rebuild the node through the unique table
          obtain ⟨hn', hhn', e₁, e₂, _, _⟩ := g₂ hi hn hhn
          have hfetch := @fetch_WfE σ₂ subhigh sublow hn.module inv₂.1
            inv₂.2.1 hi hn' hhn' csh.validE csl.validE
          rw [e₁, e₂] at hfetch
          obtain ⟨wf₃, hio₃, g₃, j, ndj, hj1, hj2, hjidx, hjord, hjh, hjl⟩ :=
            hfetch
          rw [hj1]
          have hvid : (VRef.ref j).vid = j := rfl
          rw [hvid]
          have gm : GrowsE (fetchUniqueTable σ₂ hn.index subhigh sublow
              hn.order hn.module).2
              ((fetchUniqueTable σ₂ hn.index subhigh sublow hn.order
                hn.module).2.setMinimal j hn₂.minimal) :=
            GrowsE_setMinimal _ j hn₂.minimal
          have g₂m : GrowsE σ₂ ((fetchUniqueTable σ₂ hn.index subhigh
              sublow hn.order hn.module).2.setMinimal j hn₂.minimal) :=
            GrowsE_trans g₃ gm
          have gAllm : GrowsE σ ((fetchUniqueTable σ₂ hn.index subhigh
              sublow hn.order hn.module).2.setMinimal j hn₂.minimal) :=
            GrowsE_trans g₂ g₂m
          have hjm : ((fetchUniqueTable σ₂ hn.index subhigh sublow
              hn.order hn.module).2.setMinimal j hn₂.minimal).node? j =
              some { ndj with minimal := hn₂.minimal } := by
            rw [node?_setMinimal, hj2]
            simp
          have famj : Fam ((fetchUniqueTable σ₂ hn.index subhigh sublow
              hn.order hn.module).2.setMinimal j hn₂.minimal) (.ref j)
              (filt H L) := by
            have hA' : Fam ((fetchUniqueTable σ₂ hn.index subhigh sublow
                hn.order hn.module).2.setMinimal j hn₂.minimal)
                ({ ndj with minimal := hn₂.minimal } : SetNode).high A := by
              show Fam _ ndj.high A
              rw [hjh]
              exact Fam_growsE g₂m fA
            have hB' : Fam ((fetchUniqueTable σ₂ hn.index subhigh sublow
                hn.order hn.module).2.setMinimal j hn₂.minimal)
                ({ ndj with minimal := hn₂.minimal } : SetNode).low B := by
              show Fam _ ndj.low B
              rw [hjl]
              exact Fam_growsE g₂m fB
            have hres := Fam_node_intro hjm hA' hB'
            rw [show ({ ndj with minimal := hn₂.minimal } : SetNode).index
              = hn.index from hjidx] at hres
            rw [hcomb]
            exact hres
          have canj : Canon ((fetchUniqueTable σ₂ hn.index subhigh sublow
              hn.order hn.module).2.setMinimal j hn₂.minimal) (.ref j) := by
            refine .node j { ndj with minimal := hn₂.minimal } (filt H L)
              hjm ?_ ?_ ?_ ?_ ?_ famj (Antichain_filt hAH L)
            · show ndj.high ≠ .term false
              rw [hjh]
              exact hterm
            · show Canon _ ndj.high
              rw [hjh]
              exact Canon_mono g₂m csh
            · show Canon _ ndj.low
              rw [hjl]
              exact Canon_mono g₂m csl
            · show Below _ (ndj.order, ndj.index) ndj.high
              rw [hjh, hjord, hjidx]
              exact Below_growsE g₂m bsh
            · show Below _ (ndj.order, ndj.index) ndj.low
              rw [hjl, hjord, hjidx]
              exact Below_growsE g₂m bsl
          have htrm : ∀ q, Below ((fetchUniqueTable σ₂ hn.index subhigh
              sublow hn.order hn.module).2.setMinimal j hn₂.minimal) q
              (.ref hi) →
              Below ((fetchUniqueTable σ₂ hn.index subhigh sublow hn.order
                hn.module).2.setMinimal j hn₂.minimal) q (.ref j) := by
            intro q hb
            have hq := Below_ref_posLt hhn (Below_back gAllm hhn hb)
            refine Or.inr ⟨j, { ndj with minimal := hn₂.minimal }, rfl,
              hjm, ?_⟩
            show posLt q (ndj.order, ndj.index)
            rw [hjord, hjidx]
            exact hq
          have hsubeq : ((fetchUniqueTable σ₂ hn.index subhigh sublow
              hn.order hn.module).2.setMinimal j hn₂.minimal).subTab =
              σ₂.subTab := by
            show (fetchUniqueTable σ₂ hn.index subhigh sublow hn.order
              hn.module).2.subTab = σ₂.subTab
            exact fetch_subTab σ₂ hn.index subhigh sublow hn.order
              hn.module
          have scm := SubCoh_growsE inv₂.2.2 g₂m hsubeq
          have gcons : GrowsE ((fetchUniqueTable σ₂ hn.index subhigh
              sublow hn.order hn.module).2.setMinimal j hn₂.minimal)
              { ((fetchUniqueTable σ₂ hn.index subhigh sublow hn.order
                  hn.module).2.setMinimal j hn₂.minimal) with
                subTab := ((hi, li), VRef.ref j) ::
                  ((fetchUniqueTable σ₂ hn.index subhigh sublow hn.order
                    hn.module).2.setMinimal j hn₂.minimal).subTab } :=
            GrowsE_of_nodes_eq rfl
          refine ⟨⟨WfMin_setMinimal wf₃ j hn₂.minimal,
            IdxOrd_setMinimal hio₃ j hn₂.minimal,
            SubCoh_cons scm (Fam_growsE gAllm hH) (Fam_growsE gAllm hL)
              famj canj htrm⟩,
            GrowsE_trans gAllm gcons, Canon_mono gcons canj,
            Fam_growsE gcons famj, ?_⟩
          intro q hb
          have hq := Below_ref_posLt hhn hb
          refine Or.inr ⟨j, { ndj with minimal := hn₂.minimal }, rfl,
            ?_, ?_⟩
          · show ((fetchUniqueTable σ₂ hn.index subhigh sublow hn.order
              hn.module).2.setMinimal j hn₂.minimal).node? j = some _
            exact hjm
          · show posLt q (ndj.order, ndj.index)
            rw [hjord, hjidx]
            exact hq

/-- C4 (counterexample).  `FetchUniqueTable` does not implement the
zero-suppression rule: called with `high = EMPTY` on a fresh state it
allocates and returns a new `SetNode` instead of returning `low`, and the
node store grows. -/
theorem fetch_empty_high_cex :
    (fetchUniqueTable emptyState 7 (.term false) (.term true) 3 false).1 = .ref 2 ∧
    (VRef.ref 2 : VRef) ≠ .term true ∧
    (fetchUniqueTable emptyState 7 (.term false) (.term true) 3 false).2.nodes ≠ [] := by
  refine ⟨rfl, by decide, by decide⟩

/-- C4 (amended).  `FetchUniqueTable(index, high, low, order, module)`
returns the unique-table entry for `(index, high.id, low.id)` when one is
present and otherwise allocates a fresh `SetNode` with the next id,
regardless of `high`; the zero-suppression and redundancy reductions are
performed by the callers before fetching, as in the reduction step of
`Apply`, which returns `low` whenever the computed high branch is `EMPTY`
or shares its id with the low branch. -/
theorem fetch_and_reduce_contract (σ : ZState) (index ord : Int)
    (high low : VRef) (md : Bool) (f : Nat) (nd : SetNode) :
    (∀ j, lookupA σ.uniq (index, high.vid, low.vid) = some j →
      fetchUniqueTable σ index high low ord md = (.ref j, σ)) ∧
    (lookupA σ.uniq (index, high.vid, low.vid) = none →
      fetchUniqueTable σ index high low ord md =
        (.ref σ.nextId, fetchFresh σ index high low ord md) ∧
      (fetchFresh σ index high low ord md).node? σ.nextId =
        some { index := index, order := ord, high := high, low := low,
               module := md, minimal := false, mark := false,
               cutSets := ([] : List (List Int)) } ∧
      (fetchFresh σ index high low ord md).nextId = σ.nextId + 1) ∧
    (applyReduce (f + 1) nd (.term false) low σ = some (low, σ)) ∧
    (high.vid = low.vid → applyReduce (f + 1) nd high low σ = some (low, σ)) := by
  refine ⟨?_, ?_, ?_, ?_⟩
  · intro j hj
    simp [fetchUniqueTable, hj]
  · intro hj
    refine ⟨by simp [fetchUniqueTable, hj], ?_, rfl⟩
    show lookupA ((σ.nextId,
        ({ index := index, order := ord, high := high, low := low,
           module := md, minimal := false, mark := false,
           cutSets := ([] : List (List Int)) } : SetNode)) :: σ.nodes)
        σ.nextId =
      some { index := index, order := ord, high := high, low := low,
             module := md, minimal := false, mark := false,
             cutSets := ([] : List (List Int)) }
    rw [lookupA, if_pos rfl]
  · by_cases h0 : (VRef.term false).vid = low.vid
    · simp [applyReduce, h0]
    · simp [applyReduce, h0]
  · intro hv
    simp [applyReduce, hv]

/-- C4 (witness): the contract evaluated on the example state: the key
`(3, 1, 0)` is present, so the stored node is returned, and the `Apply`
reduction step returns the low branch for an `EMPTY` high. -/
theorem fetch_and_reduce_contract_wit :
    fetchUniqueTable exState 3 (.term true) (.term false) 3 false = (.ref 2, exState) ∧
    applyReduce 1 nodeV (.term false) (.ref 3) exState = some (.ref 3, exState) :=
  ⟨(fetch_and_reduce_contract exState 3 3 (.term true) (.term false) false 0 nodeV).1 2 rfl,
   (fetch_and_reduce_contract exState 3 3 (.term true) (.ref 3) false 0 nodeV).2.2.1⟩

/-- C5 (counterexample).  The negative-budget check precedes the terminal
cases, so `OR(EMPTY, BASE)` with `limit_order = -1` returns `EMPTY`, not
the second operand as the claimed identity `OR(EMPTY, x) = x` requires. -/
theorem apply_negative_budget_cex :
    applyVertex 1 .orGate (.term false) (.term true) (-1) emptyState =
      some (.term false, emptyState) ∧
    (VRef.term false : VRef) ≠ .term true := by
  exact ⟨rfl, by decide⟩

/-- C5 (amended).  For a non-negative budget, `Apply` satisfies the
terminal identities `OR(EMPTY, x) = x`, `OR(BASE, x) = BASE`,
`AND(EMPTY, x) = EMPTY`, `AND(BASE, x) = x` and idempotence on equal
operands; for a negative budget it returns `EMPTY` regardless of the
operands. -/
theorem apply_terminal_cases (f : Nat) (t : Operator) (x a b : VRef)
    (l : Int) (σ : ZState) (h : 0 ≤ l) :
    applyVertex (f + 1) .orGate (.term false) x l σ = some (x, σ) ∧
    applyVertex (f + 1) .orGate (.term true) x l σ = some (.term true, σ) ∧
    applyVertex (f + 1) .andGate (.term false) x l σ = some (.term false, σ) ∧
    applyVertex (f + 1) .andGate (.term true) x l σ = some (x, σ) ∧
    applyVertex (f + 1) t a a l σ = some (a, σ) ∧
    (∀ l' : Int, l' < 0 →
      applyVertex (f + 1) t a b l' σ = some (.term false, σ)) := by
  have hnl : ¬ l < 0 := not_lt.mpr h
  refine ⟨?_, ?_, ?_, ?_, ?_, ?_⟩
  · cases x with
    | term v => cases v <;> simp [applyVertex, hnl, applyTerminals]
    | ref i => simp [applyVertex, hnl, applyNodeTerminal]
  · cases x with
    | term v => cases v <;> simp [applyVertex, hnl, applyTerminals]
    | ref i => simp [applyVertex, hnl, applyNodeTerminal]
  · cases x with
    | term v => cases v <;> simp [applyVertex, hnl, applyTerminals]
    | ref i => simp [applyVertex, hnl, applyNodeTerminal]
  · cases x with
    | term v => cases v <;> simp [applyVertex, hnl, applyTerminals]
    | ref i => simp [applyVertex, hnl, applyNodeTerminal]
  · cases a with
    | term v => cases t <;> cases v <;> simp [applyVertex, hnl, applyTerminals]
    | ref i => simp [applyVertex, hnl]
  · intro l' hl'
    simp [applyVertex, hl']

/-- C5 (witness): the amended identities evaluated at `limit_order = 0`
with a `SetNode` operand. -/
theorem apply_terminal_cases_wit :
    (0 : Int) ≤ 0 ∧
    applyVertex 1 .orGate (.term false) (.ref 2) 0 exState = some (.ref 2, exState) ∧
    applyVertex 1 .andGate (.term true) (.ref 2) 0 exState = some (.ref 2, exState) ∧
    applyVertex 1 .andGate (.ref 4) (.ref 4) 0 exState = some (.ref 4, exState) ∧
    applyVertex 1 .andGate (.ref 4) (.ref 2) (-7) exState = some (.term false, exState) :=
  ⟨le_refl 0,
   (apply_terminal_cases 0 .andGate (.ref 2) (.ref 4) (.ref 2) 0 exState (le_refl 0)).1,
   (apply_terminal_cases 0 .andGate (.ref 2) (.ref 4) (.ref 2) 0 exState (le_refl 0)).2.2.2.1,
   (apply_terminal_cases 0 .andGate (.ref 2) (.ref 4) (.ref 2) 0 exState (le_refl 0)).2.2.2.2.1,
   (apply_terminal_cases 0 .andGate (.ref 2) (.ref 4) (.ref 2) 0 exState (le_refl 0)).2.2.2.2.2 (-7) (by decide)⟩

/-- C9 (counterexample).  Complement elimination does not minimize the
rebuilt node for a positive literal: on the positive-only, non-minimal
diagram of `exState` (family containing 1 and 3, containing 2, containing
3) the pass returns the root `nodeV` unchanged, whereas `Minimize`
applied to the fetch of the same index and eliminated children returns
the different vertex `nodeB`. -/
theorem eliminate_positive_no_minimize_cex :
    (eliminateComplements 10 (.ref 4) exState []).map (fun p => p.1) = some (.ref 4) ∧
    (minimize 10 (fetchUniqueTable exState 1 (.ref 2) (.ref 3) 1 false).1
        (fetchUniqueTable exState 1 (.ref 2) (.ref 3) 1 false).2).map Prod.fst =
      some (.ref 3) ∧
    (VRef.ref 4 : VRef) ≠ .ref 3 :=
  ⟨rfl, rfl, by decide⟩

/-- C9 (amended).  `EliminateComplement` on a `SetNode` with a negative
literal returns `OR` of the eliminated high and low children under
`limit_order`, as claimed; for a positive literal it performs the
zero-suppression and redundancy reductions (returning the eliminated low
branch) and otherwise rebuilds the node through the unique table without
applying `Minimize`. -/
theorem eliminateComplement_cases (f : Nat) (node : SetNode) (high low : VRef)
    (σ : ZState) (wide : List (Int × VRef)) :
    (node.index < 0 → ∀ r σ₁,
      applyVertex (f + 1) .orGate high low σ.limitOrder σ = some (r, σ₁) →
      eliminateComplement (f + 1) node high low σ wide = some (r, σ₁, wide)) ∧
    (0 ≤ node.index → high.vid = low.vid →
      eliminateComplement (f + 1) node high low σ wide = some (low, σ, wide)) ∧
    (0 ≤ node.index → high = .term false →
      eliminateComplement (f + 1) node high low σ wide = some (low, σ, wide)) ∧
    (0 ≤ node.index → high.vid ≠ low.vid → high ≠ .term false →
      node.module = false →
      eliminateComplement (f + 1) node high low σ wide =
        some ((fetchUniqueTable σ node.index high low node.order node.module).1,
              (fetchUniqueTable σ node.index high low node.order node.module).2,
              wide)) := by
  refine ⟨?_, ?_, ?_, ?_⟩
  · intro hneg r σ₁ happ
    simp [eliminateComplement, hneg, happ]
  · intro hpos hv
    have : ¬ node.index < 0 := not_lt.mpr hpos
    simp [eliminateComplement, this, hv]
  · intro hpos hhigh
    have hnlt : ¬ node.index < 0 := not_lt.mpr hpos
    by_cases hv : high.vid = low.vid
    · simp [eliminateComplement, hnlt, hv]
    · simp [eliminateComplement, hnlt, hv, hhigh]
  · intro hpos hv hhigh hmod
    have hnlt : ¬ node.index < 0 := not_lt.mpr hpos
    simp [eliminateComplement, hnlt, hv, hmod, hhigh]

/-- C9 (witness): the amended cases evaluated on concrete nodes: the
complement node `-2` is absorbed by `OR`, and the positive root of the
example state is rebuilt through the unique table, yielding itself. -/
theorem eliminateComplement_cases_wit :
    eliminateComplement 1 nodeNeg (.term true) (.term false) emptyState [] =
      some (.term true, emptyState, []) ∧
    eliminateComplement 1 nodeV (.ref 2) (.ref 3) exState [] =
      some (.ref 4, exState, []) :=
  ⟨(eliminateComplement_cases 0 nodeNeg (.term true) (.term false) emptyState []).1
      (by decide) (.term true) emptyState rfl,
   (eliminateComplement_cases 0 nodeV (.ref 2) (.ref 3) exState []).2.2.2
      (by decide) (by decide) (by decide) rfl⟩

/-- C10.  `Apply` is commutative in its set arguments: once
`Apply(op, a, b, limit_order)` has produced a vertex, the call with the
operands swapped returns that very vertex from the resulting state — the
terminal dispatch is symmetric, equal-id operands are the same vertex,
and the compute table is keyed by the unordered id pair, so the swapped
call hits the memoised entry. -/
theorem apply_swap_same_vertex {f : Nat} {t : Operator} {a b : VRef}
    {l : Int} {σ σ' : ZState} {r : VRef}
    (h : applyVertex f t a b l σ = some (r, σ')) :
    applyVertex 1 t b a l σ' = some (r, σ') := by
  cases f with
  | zero => simp [applyVertex] at h
  | succ f =>
    by_cases hl : l < 0
    · simp only [applyVertex, if_pos hl, Option.some.injEq, Prod.mk.injEq] at h
      obtain ⟨rfl, rfl⟩ := h
      simp [applyVertex, hl]
    · cases a with
      | term v₁ =>
        cases b with
        | term v₂ =>
          simp only [applyVertex, if_neg hl, Option.some.injEq,
            Prod.mk.injEq] at h
          obtain ⟨rfl, rfl⟩ := h
          simp [applyVertex, hl, applyTerminals_comm]
        | ref j =>
          simp only [applyVertex, if_neg hl, Option.some.injEq,
            Prod.mk.injEq] at h
          obtain ⟨rfl, rfl⟩ := h
          simp [applyVertex, hl]
      | ref i =>
        cases b with
        | term v₂ =>
          simp only [applyVertex, if_neg hl, Option.some.injEq,
            Prod.mk.injEq] at h
          obtain ⟨rfl, rfl⟩ := h
          simp [applyVertex, hl]
        | ref j =>
          simp only [applyVertex, if_neg hl] at h
          by_cases hij : i = j
          · subst hij
            rw [if_pos rfl] at h
            simp only [Option.some.injEq, Prod.mk.injEq] at h
            obtain ⟨rfl, rfl⟩ := h
            simp [applyVertex, hl]
          · rw [if_neg hij] at h
            cases hfc : fetchComputeTable σ t (.ref i) (.ref j) l with
            | some r₀ =>
              rw [hfc] at h
              simp only [Option.some.injEq, Prod.mk.injEq] at h
              obtain ⟨rfl, rfl⟩ := h
              have hsym : fetchComputeTable σ t (.ref j) (.ref i) l = some r₀ := by
                rw [fetchComputeTable_comm]
                exact hfc
              simp [applyVertex, hl, Ne.symm hij, hsym]
            | none =>
              rw [hfc] at h
              cases hn1 : σ.node? i with
              | none => rw [hn1] at h; simp at h
              | some n₁ =>
                rw [hn1] at h
                cases hn2 : σ.node? j with
                | none => rw [hn2] at h; simp at h
                | some n₂ =>
                  rw [hn2] at h
                  simp only [Bind.bind, Option.some_bind] at h
                  cases happ : applyNodes f t
                      (canonicalPair (VRef.ref i) n₁ (VRef.ref j) n₂).1
                      (canonicalPair (VRef.ref i) n₁ (VRef.ref j) n₂).2.1
                      (canonicalPair (VRef.ref i) n₁ (VRef.ref j) n₂).2.2.1
                      (canonicalPair (VRef.ref i) n₁ (VRef.ref j) n₂).2.2.2
                      l σ with
                  | none => rw [happ] at h; simp at h
                  | some p =>
                    rw [happ] at h
                    simp only [Option.some_bind, Option.some.injEq] at h
                    obtain ⟨r₁, σ₁⟩ := p
                    simp only [Prod.mk.injEq] at h
                    obtain ⟨rfl, rfl⟩ := h
                    have hhit := fetch_store_compute σ₁ t (.ref i) (.ref j) l r₁
                    simp [applyVertex, hl, Ne.symm hij, hhit]

/-- C3.  For a positive `limit_order` and bounded caches (as in any
freshly built state, whose caches are empty), every cut set returned by
`Analyze` — including those assembled through module proxies, whose
concatenations are filtered against the bound — has length at most
`limit_order`. -/
theorem analyze_order_bound {f : Nat} {uc : Int → Bool} {σ : ZState}
    {cuts : List (List Int)} {σ' : ZState}
    (H : analyze f uc σ = some (cuts, σ')) (hL : 0 < σ.limitOrder)
    (hb : cacheBoundedB σ = true) :
    ∀ s ∈ cuts, (s.length : Int) ≤ σ.limitOrder := by
  unfold analyze at H
  cases hm : minimizeModules f σ.modules σ with
  | none => rw [hm] at H; simp at H
  | some q₁ =>
    rw [hm] at H
    obtain ⟨mods, σ₁⟩ := q₁
    simp only [Bind.bind, Option.some_bind] at H
    cases hmin : minimize f { σ₁ with modules := mods }.root
        { σ₁ with modules := mods } with
    | none => rw [hmin] at H; simp at H
    | some q₂ =>
      rw [hmin] at H
      obtain ⟨rootMin, σ₃⟩ := q₂
      simp only [Option.some_bind] at H
      have p₁ : cachePres σ σ₁ := minimizeModules_cachePres σ.modules f hm
      have p₂ : cachePres σ₁ { σ₁ with modules := mods } := ⟨rfl, id⟩
      have p₃ : cachePres { σ₁ with modules := mods } σ₃ :=
        minimize_cachePres f hmin
      have pAll : cachePres σ σ₃ :=
        cachePres_trans p₁ (cachePres_trans p₂ p₃)
      rw [Option.bind_eq_some] at H
      obtain ⟨q₃, hgen, hq⟩ := H
      obtain ⟨cuts₀, σ₅⟩ := q₃
      simp only [Option.some.injEq, Prod.mk.injEq] at hq
      have h₁ := generateCutSets_bound f hgen
        (show (0 : Int) ≤ σ₃.limitOrder by rw [pAll.1]; exact le_of_lt hL)
        (show cacheBoundedB σ₃ = true from pAll.2 hb)
      intro s hs
      have hmem : s ∈ cuts₀ := by rw [hq.1]; exact hs
      have hres : (s.length : Int) ≤ σ₃.limitOrder := h₁.1 s hmem
      rwa [pAll.1] at hres

/-- C3 (witness): `Analyze` on the example state (order bound 5) yields
the cut sets containing 3 and containing 2, both of length at most 5. -/
theorem analyze_order_bound_wit :
    ([3] : List Int) ∈ [[3], ([2] : List Int)] ∧
    (([3] : List Int).length : Int) ≤ exState.limitOrder :=
  ⟨by decide,
    analyze_order_bound
      (show analyze 30 (fun _ => true) exState =
        some ([[3], [2]], exStateAnalyzed) by rfl)
      (by decide) (by decide) [3] (by decide)⟩

/-- C10 (witness): a terminal `OR` computation and its swapped call. -/
theorem apply_swap_same_vertex_wit :
    applyVertex 1 .orGate (.term false) (.term true) 0 emptyState =
      some (.term true, emptyState) ∧
    applyVertex 1 .orGate (.term true) (.term false) 0 emptyState =
      some (.term true, emptyState) :=
  ⟨rfl, apply_swap_same_vertex
    (show applyVertex 1 .orGate (.term false) (.term true) 0 emptyState =
      some (.term true, emptyState) from rfl)⟩

/-- C7.  `Minimize` is idempotent: once `Minimize` has produced vertex
`r`, running `Minimize` again on `r` in the resulting state returns the
identical vertex `r` and leaves the state unchanged — already-minimal
nodes return themselves, so the second run does no work. -/
theorem minimize_idempotent {f : Nat} {v : VRef} {σ : ZState} {r : VRef}
    {σ' : ZState} (H : minimize f v σ = some (r, σ')) (inv : MinInv σ)
    (f₂ : Nat) : minimize (Nat.succ f₂) r σ' = some (r, σ') := by
  obtain ⟨_, fr, _⟩ := minimize_flag f H inv
  exact Flagged_minimize_succ fr f₂

/-- C7 (witness): minimizing node 2 of the example state yields node 2
flagged minimal, and a second `Minimize` run returns it unchanged. -/
theorem minimize_idempotent_wit :
    minimize (Nat.succ 0) (VRef.ref 2)
      { exState with
          nodes := [(2, { nodeA with minimal := true }), (3, nodeB),
            (4, nodeV)],
          minTab := [(2, VRef.ref 2)] } =
    some (VRef.ref 2,
      { exState with
          nodes := [(2, { nodeA with minimal := true }), (3, nodeB),
            (4, nodeV)],
          minTab := [(2, VRef.ref 2)] }) :=
  minimize_idempotent
    (show minimize 3 (VRef.ref 2) exState =
      some (VRef.ref 2,
        { exState with
            nodes := [(2, { nodeA with minimal := true }), (3, nodeB),
              (4, nodeV)],
            minTab := [(2, VRef.ref 2)] }) by decide)
    MinInv_exState 0

/-- The example state is coherent for the family semantics: well-formed
store, index determines order, empty subsume memo. -/
theorem GoodE_exState : GoodE exState := by
  refine ⟨MinInv_exState.1, ?_, ?_⟩
  · intro i nd j nd' h h' hidx
    have hmem : ∀ {a : Int} {m : SetNode}, exState.node? a = some m →
        (a = 2 ∧ m = nodeA) ∨ (a = 3 ∧ m = nodeB) ∨
        (a = 4 ∧ m = nodeV) := by
      intro a m hm
      have h₂ := lookupA_mem hm
      simp only [exState, List.mem_cons, List.not_mem_nil, or_false,
        Prod.mk.injEq] at h₂
      tauto
    rcases hmem h with ⟨rfl, rfl⟩ | ⟨rfl, rfl⟩ | ⟨rfl, rfl⟩ <;>
      rcases hmem h' with ⟨rfl, rfl⟩ | ⟨rfl, rfl⟩ | ⟨rfl, rfl⟩ <;>
      simp_all [nodeA, nodeB, nodeV]
  · intro p hp
    simp [exState] at hp

/-- Node 2 of the example state is a canonical operand. -/
theorem Canon_exState_2 : Canon exState (.ref 2) :=
  .node 2 nodeA {{3}} (by decide) (by decide) (.term true) (.term false)
    (Or.inl rfl) (Or.inl rfl) ⟨5, by decide⟩ (by decide)

/-- Node 3 of the example state is a canonical operand. -/
theorem Canon_exState_3 : Canon exState (.ref 3) :=
  .node 3 nodeB {{2}, {3}} (by decide) (by decide) (.term true)
    Canon_exState_2 (Or.inl rfl)
    (Or.inr ⟨2, nodeA, rfl, by decide, by decide⟩)
    ⟨5, by decide⟩ (by decide)

/-- C6 (counterexample).  `Subsume` does not compute the setwise
difference on arbitrary ZBDD vertices: against the structurally valid
but non-minimal low operand node 4 of `cexS` (family
\x7b\x7b10,20,30\x7d,\x7b10\x7d\x7d), the high operand node 5 (family \x7b\x7b10\x7d\x7d) is
returned unchanged although the exact difference is the empty family —
the high-terminal shortcut inside the recursion ignores low families
containing the empty set.  Moreover `Subsume(BASE, BASE)` returns
`EMPTY`, not `BASE`: the low operand is dispatched before the
high-terminal rule. -/
theorem subsume_not_exact_cex :
    (subsume 8 (VRef.ref 5) (VRef.ref 4) cexS).map Prod.fst =
      some (VRef.ref 5) ∧
    fam 8 cexS (VRef.ref 5) = some {{10}} ∧
    fam 8 cexS (VRef.ref 4) = some {{10, 20, 30}, {10}} ∧
    filt {{10}} {{10, 20, 30}, {10}} = ∅ ∧
    subsume 1 (VRef.term true) (VRef.term true) emptyState =
      some (VRef.term false, emptyState) :=
  ⟨by decide, by decide, by decide, by decide, rfl⟩

/-- C6 (amended).  `Subsume(high, low)` dispatches on `low` first:
`low = EMPTY` returns `high`, `low = BASE` returns `EMPTY` (also for
terminal `high`), and a terminal `high` against a node `low` returns
`high`.  On canonical operands — well-ordered live diagrams whose
families are hereditarily antichains — in a coherent state, the result
denotes exactly the sets of the family of `high` that are supersets of
no set of the family of `low`. -/
theorem subsume_setwise_difference :
    (∀ (f : Nat) (h : VRef) (σ : ZState),
      subsume (Nat.succ f) h (.term false) σ = some (h, σ)) ∧
    (∀ (f : Nat) (h : VRef) (σ : ZState),
      subsume (Nat.succ f) h (.term true) σ = some (.term false, σ)) ∧
    (∀ (f : Nat) (b : Bool) (li : Int) (σ : ZState),
      subsume (Nat.succ f) (.term b) (.ref li) σ = some (.term b, σ)) ∧
    (∀ (f : Nat) (h l : VRef) (σ : ZState) (r : VRef) (σ' : ZState)
      (H L : Finset (Finset Int)),
      subsume f h l σ = some (r, σ') → GoodE σ → Canon σ h → Canon σ l →
      Fam σ h H → Fam σ l L → Fam σ' r (filt H L)) := by
  refine ⟨fun f h σ => rfl, fun f h σ => rfl, fun f b li σ => rfl, ?_⟩
  intro f h l σ r σ' H L hs hg hch hcl hH hL
  exact (subsume_exact f hs hg hch hcl hH hL).2.2.2.1

/-- C6 (witness): `Subsume` of node 3 (family \x7b\x7b2\x7d,\x7b3\x7d\x7d) against
node 2 (family \x7b\x7b3\x7d\x7d) on the example state returns node 5, whose
family is the exact difference \x7b\x7b2\x7d\x7d. -/
theorem subsume_setwise_difference_wit :
    Fam exStateSub (VRef.ref 5) (filt {{2}, {3}} {{3}}) ∧
    filt ({{2}, {3}} : Finset (Finset Int)) {{3}} = {{2}} :=
  ⟨subsume_setwise_difference.2.2.2 8 (VRef.ref 3) (VRef.ref 2) exState
      (VRef.ref 5) exStateSub {{2}, {3}} {{3}} (by decide) GoodE_exState
      Canon_exState_3 Canon_exState_2 ⟨5, by decide⟩ ⟨5, by decide⟩,
    by decide⟩

end ZbddSpec
